import Mathlib

/-!
Verification of the rust-graph-algos repository: a shallow embedding of the
dominance-analysis algorithms (`src/dominator.rs`) over the graph capability
traits (`src/traits.rs`), and of the concrete handle-indexed graph store
(`src/lib.rs`), together with proofs and refutations of the specified
properties.

Vertex and edge handles are modelled as `Nat`.  Rust `HashMap`s are modelled
as association lists (`List (κ × β)` with `List.lookup`); `BitSet`s of vertex
indices are modelled as `Finset Nat` of vertices.  Code that can panic
(indexing a missing key, a failed `assert!`) or loop without bound is
embedded as an `Option`-returning function, `none` standing for an aborted
or diverging run.
-/

namespace RustGraphAlgos

/-! ## List helpers shared by the embeddings -/

/-- Ascending sort, modelling `Vec::sort` on vertex handles. -/
def sortNat (l : List Nat) : List Nat :=
  l.insertionSort (· ≤ ·)

/-- Consecutive-duplicate removal, modelling `Vec::dedup`. -/
def rustDedup : List Nat → List Nat
  | [] => []
  | [a] => [a]
  | a :: b :: t => if a = b then rustDedup (b :: t) else a :: rustDedup (b :: t)

/-- `HashMap::insert` on an association list: replace the binding of `k`
if present, otherwise append a new binding. -/
def alInsert {β : Type _} : List (Nat × β) → Nat → β → List (Nat × β)
  | [], k, v => [(k, v)]
  | (k', v') :: t, k, v =>
    if k' = k then (k, v) :: t else (k', v') :: alInsert t k v

/-- `HashMap::remove` on an association list (the removed value, if any,
is recovered separately with `List.lookup`). -/
def alRemove {β : Type _} (l : List (Nat × β)) (k : Nat) : List (Nat × β) :=
  l.filter (fun p => p.1 ≠ k)

/-- `Vec::swap_remove i`: replace position `i` by the last element and pop. -/
def swapRemove {α : Type _} (l : List α) (i : Nat) : List α :=
  match l.getLast? with
  | none => l
  | some a => (l.set i a).dropLast

/-- The keys of an association list. -/
def keys {β : Type _} (l : List (Nat × β)) : List Nat :=
  l.map Prod.fst

/-! ## The graph view used by the dominance engine

`dominator.rs` is generic over `Graph + BidirectionalGraph + VertexListGraph`:
it needs vertex enumeration, in-edge enumeration with `in_degree`, and edge
sources.  Both concrete stores of the repository keep per-vertex edge lists in
insertion order, so a graph is embedded as its vertex list and its edge list
(an edge being a (source, target) pair), both in insertion order. -/

structure DiGraph where
  vertices : List Nat
  edges : List (Nat × Nat)
deriving DecidableEq

/-- `graph.in_edges(v)` in insertion order (each edge represented by its
(source, target) pair). -/
def DiGraph.inEdges (g : DiGraph) (v : Nat) : List (Nat × Nat) :=
  g.edges.filter (fun e => e.2 = v)

/-- `graph.in_degree(v)`. -/
def DiGraph.inDegree (g : DiGraph) (v : Nat) : Nat :=
  (g.inEdges v).length

/-- Successors of `v` in out-edge insertion order (`out_edges` targets). -/
def DiGraph.outAdj (g : DiGraph) (v : Nat) : List Nat :=
  (g.edges.filter (fun e => e.1 = v)).map (fun e => e.2)

/-- The set of all vertices (the `all_set` bit set of `dominators`). -/
def DiGraph.allSet (g : DiGraph) : Finset Nat :=
  g.vertices.toFinset

/-- One-step edge relation. -/
def DiGraph.EdgeStep (g : DiGraph) (u w : Nat) : Prop :=
  (u, w) ∈ g.edges

/-- Reachability along directed edges. -/
def DiGraph.Reachable (g : DiGraph) (s v : Nat) : Prop :=
  Relation.ReflTransGen g.EdgeStep s v

/-- Well-formedness maintained by the concrete stores: distinct vertex
handles and edge endpoints that are vertices. -/
def DiGraph.WF (g : DiGraph) : Prop :=
  g.vertices.Nodup ∧ ∀ e ∈ g.edges, e.1 ∈ g.vertices ∧ e.2 ∈ g.vertices

instance (g : DiGraph) : Decidable g.WF := by
  unfold DiGraph.WF; infer_instance

/-! ## `dominators` (naive iterative fixpoint), from `src/dominator.rs` -/

/-- The per-pass state: one dominator set per vertex, in vertex-list order
(the `Vec<BitSet>` indexed by `vertex_idx`). -/
def domState (g : DiGraph) (f : Nat → Finset Nat) : List (Nat × Finset Nat) :=
  g.vertices.map (fun v => (v, f v))

/-- Read a vertex's set out of the state (the `cur_dom[vertex_idx[&v]]`
lookup). -/
def curFun (st : List (Nat × Finset Nat)) (v : Nat) : Finset Nat :=
  (st.lookup v).getD ∅

/-- One vertex's recomputed set: for `v ≠ start` intersect the predecessors'
current sets (no predecessor giving the empty set) and insert `v`; the
start vertex skips the in-edge loop and gets `{start}`. -/
def domNext (g : DiGraph) (start : Nat) (cur : Nat → Finset Nat) (v : Nat) :
    Finset Nat :=
  if v = start then {v}
  else
    match (g.inEdges v).map (fun e => cur e.1) with
    | [] => {v}
    | d :: ds => insert v (ds.foldl (· ∩ ·) d)

/-- One full pass over all vertices, producing the `next_dom` buffer. -/
def passDom (g : DiGraph) (start : Nat) (cur : Nat → Finset Nat) :
    List (Nat × Finset Nat) :=
  domState g (domNext g start cur)

/-- The fixpoint loop with alternating buffers: recompute, compare by value,
repeat until unchanged (fuel models the unbounded `while`). -/
def domLoop (g : DiGraph) (start : Nat) :
    Nat → List (Nat × Finset Nat) → Option (List (Nat × Finset Nat))
  | 0, _ => none
  | fuel + 1, cur =>
    let next := passDom g start (curFun cur)
    if next = cur then some next else domLoop g start fuel next

/-- Collect a `Finset Nat` into its ascending-sorted element list (the
`res.sort()` of a collected `BitSet`). -/
def finsetSort (s : Finset Nat) : List Nat :=
  Quot.liftOn s.val sortNat (fun _ _ h =>
    @List.eq_of_perm_of_sorted Nat (· ≤ ·) _ _ _
      (((List.perm_insertionSort _ _).trans h).trans
        (List.perm_insertionSort _ _).symm)
      (List.sorted_insertionSort _ _)
      (List.sorted_insertionSort _ _))

/-- `dominators(start, graph)`: iterate from the universal set to the
fixpoint, then emit each vertex's set as an ascending-sorted list. -/
def dominators (start : Nat) (g : DiGraph) : Option (List (Nat × List Nat)) :=
  (domLoop g start (g.vertices.length * g.vertices.length + 2)
      (domState g (fun _ => g.allSet))).map
    (fun st => g.vertices.map (fun v => (v, finsetSort (curFun st v))))

/-- One pass as a transformer of set-valued functions: what the next
buffer holds at each vertex, the current buffer being read through the
state built from `f`. -/
def domF (g : DiGraph) (start : Nat) (f : Nat → Finset Nat) :
    Nat → Finset Nat :=
  fun v => domNext g start (curFun (domState g f)) v

/-- The total size of a dominator state: the strictly decreasing measure
of the fixpoint loop. -/
def domMeasure (g : DiGraph) (f : Nat → Finset Nat) : Nat :=
  (g.vertices.map (fun v => (f v).card)).sum

/-! ## The postorder traversal collaborator

Modelled from the spec: the `TreeIterator` (the `search` module's generic
depth-first traversal utility, not part of the sources under `src/`) is "a
postorder-traversal producer that, given a graph and a start vertex, yields
every vertex reachable from start exactly once, children before parent".
It is embedded as a depth-first search from `start` that follows out-edges
in insertion order and appends a vertex to the output after all of its
children. -/

def dfsPost (g : DiGraph) : Nat → Nat → List Nat × List Nat → List Nat × List Nat
  | 0, _, st => st
  | fuel + 1, v, st =>
    if v ∈ st.1 then st
    else
      let st1 := (g.outAdj v).foldl (fun s w => dfsPost g fuel w s) (v :: st.1, st.2)
      (st1.1, st1.2 ++ [v])

/-- Modelled from the spec: the postorder sequence of vertices reachable
from `start` (children before parent, each exactly once). -/
def postorder (g : DiGraph) (start : Nat) : List Nat :=
  (dfsPost g (g.vertices.length) start ([], [])).2

/-- The reverse-postorder sequence of `immediate_dominator`. -/
def rpoList (g : DiGraph) (start : Nat) : List Nat :=
  (postorder g start).reverse

/-! ## `immediate_dominator` (Cooper–Harvey–Kennedy), from `src/dominator.rs` -/

/-- `rpo_idx[&v]`: the RPO index of a vertex; `none` models the `HashMap`
index panic on a vertex missing from the traversal. -/
def rpoIdx? (rpo : List Nat) (v : Nat) : Option Nat :=
  rpo.findIdx? (· == v)

/-- One chain step of the two-finger walk:
`rpo_idx[&ret[&rev_postorder[f]]]`, `none` on any missing key. -/
def chkUp (rpo : List Nat) (ret : List (Nat × Nat)) (f : Nat) : Option Nat := do
  let v ← rpo.get? f
  let w ← ret.lookup v
  rpoIdx? rpo w

/-- The two-finger loop of `intersect`: while the fingers differ, advance
whichever has the larger RPO index up its own idom chain. -/
def intersectGo (rpo : List Nat) (ret : List (Nat × Nat)) :
    Nat → Nat → Nat → Option Nat
  | 0, _, _ => none
  | fuel + 1, f1, f2 =>
    if f1 = f2 then rpo.get? f1
    else if f2 < f1 then do
      let f1' ← chkUp rpo ret f1
      intersectGo rpo ret fuel f1' f2
    else do
      let f2' ← chkUp rpo ret f2
      intersectGo rpo ret fuel f1 f2'

/-- `intersect(p, q, rpo_idx, rev_postorder, ret)`. -/
def intersectV (rpo : List Nat) (ret : List (Nat × Nat)) (p q : Nat) :
    Option Nat := do
  let f1 ← rpoIdx? rpo p
  let f2 ← rpoIdx? rpo q
  intersectGo rpo ret (2 * rpo.length + 2) f1 f2

/-- The candidate fold of `immediate_dominator` for one vertex `b`: the
first predecessor `≠ b` becomes the candidate unconditionally; each later
predecessor `≠ b` is intersected into the candidate only if it already has
an entry in `ret`.  The outer `none` models a panic inside `intersect`. -/
def chkNewIdom (rpo : List Nat) (ret : List (Nat × Nat)) (b : Nat)
    (preds : List Nat) : Option (Option Nat) :=
  preds.foldlM
    (fun acc p =>
      if p = b then pure acc
      else
        match acc with
        | some d =>
          if (ret.lookup p).isSome then (intersectV rpo ret p d).map some
          else pure (some d)
        | none => pure (some p))
    none

/-- Process one vertex `b` of a pass: recompute its candidate, fail on
`assert!(new_idom.is_some())`, and update `ret` and the fixpoint flag. -/
def chkStep (g : DiGraph) (rpo : List Nat) (st : List (Nat × Nat) × Bool)
    (b : Nat) : Option (List (Nat × Nat) × Bool) := do
  let new ← chkNewIdom rpo st.1 b ((g.inEdges b).map (fun e => e.1))
  match new with
  | none => none
  | some d =>
    if st.1.lookup b = some d then pure (st.1, st.2)
    else pure (alInsert st.1 b d, false)

/-- One pass over the non-start vertices in RPO order, threading `ret` and
the `fixpoint` flag (initially `true`, cleared on any change). -/
def chkPass (g : DiGraph) (rpo : List Nat) (start : Nat)
    (ret : List (Nat × Nat)) : Option (List (Nat × Nat) × Bool) :=
  (rpo.filter (fun v => v ≠ start)).foldlM (fun st b => chkStep g rpo st b)
    (ret, true)

/-- The outer `while !fixpoint` loop. -/
def chkLoop (g : DiGraph) (rpo : List Nat) (start : Nat) :
    Nat → List (Nat × Nat) → Option (List (Nat × Nat))
  | 0, _ => none
  | fuel + 1, ret => do
    let st ← chkPass g rpo start ret
    if st.2 then pure st.1 else chkLoop g rpo start fuel st.1

/-- `immediate_dominator(start, graph)`: seed `Idom(start) = start` and run
passes in reverse postorder until no change; `none` models a panic or a
diverging run (`fuel` bounds the unbounded outer loop). -/
def immediate_dominator (fuel : Nat) (start : Nat) (g : DiGraph) :
    Option (List (Nat × Nat)) :=
  chkLoop g (rpoList g start) start fuel [(start, start)]

/-! ## `dominance_frontiers`, from `src/dominator.rs` -/

/-- `ret.entry(runner).or_insert(vec![]).push(b)`. -/
def pushEntry (acc : List (Nat × List Nat)) (k b : Nat) :
    List (Nat × List Nat) :=
  match acc with
  | [] => [(k, [b])]
  | (k', l) :: t =>
    if k' = k then (k, l ++ [b]) :: t else (k', l) :: pushEntry t k b

/-- The runner walk for one predecessor of a join vertex `b`: while the
runner differs from `idom[b]`, record `b` in the runner's frontier and step
to `idom[runner]` (`none` models the missing-key panic; fuel models a
cyclic idom chain, on which the Rust loop diverges). -/
def dfWalk (idom : List (Nat × Nat)) (b stopAt : Nat) :
    Nat → Nat → List (Nat × List Nat) → Option (List (Nat × List Nat))
  | 0, _, _ => none
  | fuel + 1, runner, acc =>
    if runner = stopAt then some acc
    else do
      let acc' := pushEntry acc runner b
      let r' ← idom.lookup runner
      dfWalk idom b stopAt fuel r' acc'

/-- Walks from every predecessor of a join vertex `b`; `idom[&b]` is read
inside the loop condition, so it panics before the first step if missing. -/
def dfProcessJoin (idom : List (Nat × Nat)) (g : DiGraph) (b : Nat)
    (acc : List (Nat × List Nat)) : Option (List (Nat × List Nat)) :=
  (g.inEdges b).foldlM
    (fun acc e => do
      let stop ← idom.lookup b
      dfWalk idom b stop (idom.length + 2) e.1 acc)
    acc

/-- `dominance_frontiers(idom, graph)`: empty frontier for every vertex,
runner walks at every join vertex (in-degree at least 2), then sort and
deduplicate each frontier. -/
def dominance_frontiers (idom : List (Nat × Nat)) (g : DiGraph) :
    Option (List (Nat × List Nat)) := do
  let init := g.vertices.map (fun v => (v, ([] : List Nat)))
  let filled ← g.vertices.foldlM
    (fun acc b =>
      if 2 ≤ g.inDegree b then dfProcessJoin idom g b acc else pure acc)
    init
  pure (filled.map (fun p => (p.1, rustDedup (sortNat p.2))))

/-! ## The candidate fold as the specification words it (for refinement) -/

/-- The per-vertex candidate fold following the spec's words: fold the
two-finger intersect over exactly those predecessors of `b` that already
have an entry in the partial idom map (keeping the code's exclusion of `b`
itself); predecessors without an entry contribute nothing. -/
def chkNewIdomSpec (rpo : List Nat) (ret : List (Nat × Nat)) (b : Nat)
    (preds : List Nat) : Option (Option Nat) :=
  match preds.filter (fun p => p ≠ b ∧ (ret.lookup p).isSome) with
  | [] => some none
  | p :: ps =>
    (ps.foldlM (fun d q => intersectV rpo ret q d) p).map some

/-- What the code actually folds: the first predecessor `≠ b` is the
initial candidate whether or not it has an entry; only the later
predecessors `≠ b` are filtered by having an entry. -/
def chkNewIdomFirstFree (rpo : List Nat) (ret : List (Nat × Nat)) (b : Nat)
    (preds : List Nat) : Option (Option Nat) :=
  match preds.filter (fun p => p ≠ b) with
  | [] => some none
  | p :: ps =>
    ((ps.filter (fun q => (ret.lookup q).isSome)).foldlM
      (fun d q => intersectV rpo ret q d) p).map some

/-! ## Concrete graphs used by the scenario claim and the refutations -/

/-- Scenario B of the spec (the `frontiers` test graph). -/
def scenarioB : DiGraph :=
  ⟨[0, 1, 2, 3, 4, 5, 6, 7, 8],
   [(0, 1), (1, 2), (1, 5), (5, 6), (5, 8), (6, 7), (8, 7), (2, 3), (7, 3),
    (3, 4), (3, 1)]⟩

/-- A graph whose vertex `2` is not reachable from `0`. -/
def gUnreach : DiGraph := ⟨[0, 1, 2], [(0, 1)]⟩

/-- A graph with an unreachable cycle `2 ↔ 3` and an edge from the cycle
into the reachable part. -/
def gCycle : DiGraph := ⟨[0, 1, 2, 3], [(0, 1), (2, 3), (3, 2), (2, 1)]⟩

/-- A fully reachable graph in which vertex `1` lists its back-edge
predecessor `2` before its tree parent `0`. -/
def gFirstPred : DiGraph := ⟨[0, 1, 2], [(2, 1), (0, 1), (1, 2)]⟩

/-- A fully reachable two-vertex graph (used to witness the idom/dominators
relationship). -/
def gPathTwo : DiGraph := ⟨[0, 1], [(0, 1)]⟩

/-! ## Walks, path dominance and idom chains (for relating the two
dominator computations) -/

/-- A walk from `s` along the graph's edges, recorded as the list of
visited vertices in order: `s` first, the endpoint last. -/
inductive IsPath (g : DiGraph) (s : Nat) : Nat → List Nat → Prop
  | single : IsPath g s s [s]
  | snoc {v w : Nat} {p : List Nat} :
      IsPath g s v p → (v, w) ∈ g.edges → IsPath g s w (p ++ [w])

/-- `w` path-dominates `v` from `start`: every walk from `start` to `v`
visits `w`. -/
def PathDom (g : DiGraph) (start v w : Nat) : Prop :=
  ∀ p, IsPath g start v p → w ∈ p

/-- `w` lies on the idom chain out of `x` in the partial idom map `ret`. -/
def InChain (ret : List (Nat × Nat)) (x w : Nat) : Prop :=
  Relation.ReflTransGen (fun a c => ret.lookup a = some c) x w

end RustGraphAlgos

namespace Store

/-! ## The concrete graph store of `src/lib.rs`

`Graph<N, E>` owns five `HashMap`s (vertex labels, edge labels, per-vertex
outgoing and incoming edge lists, edge endpoints) and two monotonic handle
counters.  `HashMap`s are embedded as association lists with
`RustGraphAlgos.alInsert` / `RustGraphAlgos.alRemove` / `List.lookup`. -/

open RustGraphAlgos in
structure Graph (N E : Type) where
  vertex_labels : List (Nat × N)
  edge_labels : List (Nat × E)
  out_edges : List (Nat × List Nat)
  in_edges : List (Nat × List Nat)
  edges : List (Nat × (Nat × Nat))
  next_edge : Nat
  next_vertex : Nat

open RustGraphAlgos

/-- `Graph::new()`. -/
def Graph.new (N E : Type) : Graph N E :=
  ⟨[], [], [], [], [], 0, 0⟩

/-- `add_vertex`: allocate a fresh handle, store the label, initialize
empty adjacency lists. -/
def Graph.add_vertex {N E : Type} (g : Graph N E) (lb : N) : Graph N E × Nat :=
  let n := g.next_vertex
  ({ g with
      next_vertex := n + 1
      vertex_labels := alInsert g.vertex_labels n lb
      out_edges := alInsert g.out_edges n []
      in_edges := alInsert g.in_edges n [] },
   n)

/-- `add_edge`: if both endpoints have labels, allocate a handle, record
label and endpoints, and append the handle to both adjacency lists (the
code's inner `is_some` double-check is kept, including its partial-mutation
`None` branch). -/
def Graph.add_edge {N E : Type} (g : Graph N E) (lb : E) (src dst : Nat) :
    Graph N E × Option Nat :=
  if (g.vertex_labels.lookup src).isSome ∧ (g.vertex_labels.lookup dst).isSome
  then
    let e := g.next_edge
    let g1 := { g with
      next_edge := e + 1
      edge_labels := alInsert g.edge_labels e lb
      edges := alInsert g.edges e (src, dst) }
    match g1.in_edges.lookup dst, g1.out_edges.lookup src with
    | some ie, some oe =>
      ({ g1 with
          in_edges := alInsert g1.in_edges dst (ie ++ [e])
          out_edges := alInsert g1.out_edges src (oe ++ [e]) },
       some e)
    | _, _ => (g1, none)
  else (g, none)

/-- `rm_adj`: find the edge handle in an adjacency list and remove it by
`swap_remove` (the code's `swap_remove(o) != e` test is always false, since
the element at the found position is `e` itself). -/
def rmAdj (cont : Option (List Nat)) (e : Nat) : Option (List Nat) :=
  match cont with
  | none => none
  | some l =>
    match l.findIdx? (· == e) with
    | none => none
    | some i => some (swapRemove l i)

/-- `remove_edge`: remove the label, the endpoint record and the handle
from both adjacency lists; each failure returns `None` with the mutations
made so far kept, exactly as the early returns of the code do. -/
def Graph.remove_edge {N E : Type} (g : Graph N E) (e : Nat) :
    Graph N E × Option E :=
  match g.edge_labels.lookup e with
  | none => (g, none)
  | some lb =>
    let g0 := { g with edge_labels := alRemove g.edge_labels e }
    match g0.edges.lookup e with
    | none => (g0, none)
    | some sd =>
      let g1 := { g0 with edges := alRemove g0.edges e }
      match rmAdj (g1.out_edges.lookup sd.1) e with
      | none => (g1, none)
      | some oe =>
        let g2 := { g1 with out_edges := alInsert g1.out_edges sd.1 oe }
        match rmAdj (g2.in_edges.lookup sd.2) e with
        | none => (g2, none)
        | some ie =>
          ({ g2 with in_edges := alInsert g2.in_edges sd.2 ie }, some lb)

/-- The `for e in todel { if !self.remove_edge(*e).is_some() { return None } }`
loops of `remove_vertex`: remove edges until one removal reports absence,
keeping the state mutated so far. -/
def removeEdgesLoop {N E : Type} (g : Graph N E) :
    List Nat → Graph N E × Bool
  | [] => (g, true)
  | e :: t =>
    let ge := g.remove_edge e
    if ge.2.isSome then removeEdgesLoop ge.1 t else (ge.1, false)

/-- `remove_vertex`: remove the label, then every in-edge and every
out-edge (snapshotted first), then both adjacency lists; every early
`return None` of the code keeps the mutations made so far. -/
def Graph.remove_vertex {N E : Type} (g : Graph N E) (v : Nat) :
    Graph N E × Option N :=
  match g.vertex_labels.lookup v with
  | none => (g, none)
  | some lb =>
    let g0 := { g with vertex_labels := alRemove g.vertex_labels v }
    let todel1 := (g0.in_edges.lookup v).getD []
    let todel2 := (g0.out_edges.lookup v).getD []
    let r1 := removeEdgesLoop g0 todel1
    if r1.2 then
      let r2 := removeEdgesLoop r1.1 todel2
      if r2.2 then
        match r2.1.out_edges.lookup v with
        | none => (r2.1, none)
        | some _ =>
          let g3 := { r2.1 with out_edges := alRemove r2.1.out_edges v }
          match g3.in_edges.lookup v with
          | none => (g3, none)
          | some _ =>
            ({ g3 with in_edges := alRemove g3.in_edges v }, some lb)
      else (r2.1, none)
    else (r1.1, none)

/-- `num_vertices`. -/
def Graph.num_vertices {N E : Type} (g : Graph N E) : Nat :=
  g.vertex_labels.length

/-- `num_edges`. -/
def Graph.num_edges {N E : Type} (g : Graph N E) : Nat :=
  g.edge_labels.length

/-- `out_degree` (`map_or(0, len)`). -/
def Graph.out_degree {N E : Type} (g : Graph N E) (v : Nat) : Nat :=
  ((g.out_edges.lookup v).getD []).length

/-- `in_degree`. -/
def Graph.in_degree {N E : Type} (g : Graph N E) (v : Nat) : Nat :=
  ((g.in_edges.lookup v).getD []).length

/-- `degree`. -/
def Graph.degree {N E : Type} (g : Graph N E) (v : Nat) : Nat :=
  g.in_degree v + g.out_degree v

/-- `adjacent_vertices`: collect out-edge targets then in-edge sources,
sort ascending and remove consecutive duplicates; `none` models the
`unwrap` panics on unknown handles.  This is the buffer the returned
iterator consumes. -/
def Graph.adjacent_vertices {N E : Type} (g : Graph N E) (v : Nat) :
    Option (List Nat) := do
  let ol ← g.out_edges.lookup v
  let il ← g.in_edges.lookup v
  let tgts ← ol.mapM (fun e => (g.edges.lookup e).map (fun sd => sd.2))
  let srcs ← il.mapM (fun e => (g.edges.lookup e).map (fun sd => sd.1))
  pure (rustDedup (sortNat (tgts ++ srcs)))

/-- The `GraphAdjacency` iterator yields by popping from the back of the
buffer, so the sequence of vertices it produces is the reverse of the
sorted buffer. -/
def Graph.adjacent_vertices_yield {N E : Type} (g : Graph N E) (v : Nat) :
    Option (List Nat) :=
  (g.adjacent_vertices v).map List.reverse

/-- The store invariants of §3 of the spec, maintained by every state the
API can build: distinct keys in the five maps; edge labels and endpoint
records share their key set; every endpoint carries a vertex label; a
vertex has a label exactly when it has both adjacency lists; an adjacency
list holds exactly the (distinct) edge handles whose endpoint record
agrees; all handles are below the monotonic counters. -/
def Graph.WF {N E : Type} (g : Graph N E) : Prop :=
  (keys g.vertex_labels).Nodup ∧
  (keys g.edge_labels).Nodup ∧
  (keys g.out_edges).Nodup ∧
  (keys g.in_edges).Nodup ∧
  (keys g.edges).Nodup ∧
  (∀ p ∈ g.edge_labels, (g.edges.lookup p.1).isSome) ∧
  (∀ p ∈ g.edges, (g.edge_labels.lookup p.1).isSome) ∧
  (∀ p ∈ g.edges, (g.vertex_labels.lookup p.2.1).isSome ∧
    (g.vertex_labels.lookup p.2.2).isSome) ∧
  (∀ p ∈ g.vertex_labels, (g.out_edges.lookup p.1).isSome ∧
    (g.in_edges.lookup p.1).isSome) ∧
  (∀ p ∈ g.out_edges, (g.vertex_labels.lookup p.1).isSome) ∧
  (∀ p ∈ g.in_edges, (g.vertex_labels.lookup p.1).isSome) ∧
  (∀ p ∈ g.out_edges, p.2.Nodup ∧ ∀ e ∈ p.2,
    (g.edges.lookup e).map Prod.fst = some p.1) ∧
  (∀ p ∈ g.in_edges, p.2.Nodup ∧ ∀ e ∈ p.2,
    (g.edges.lookup e).map Prod.snd = some p.1) ∧
  (∀ p ∈ g.edges,
    p.1 ∈ (g.out_edges.lookup p.2.1).getD [] ∧
    p.1 ∈ (g.in_edges.lookup p.2.2).getD []) ∧
  (∀ p ∈ g.vertex_labels, p.1 < g.next_vertex) ∧
  (∀ p ∈ g.edge_labels, p.1 < g.next_edge)

instance {N E : Type} (g : Graph N E) : Decidable g.WF := by
  unfold Graph.WF
  infer_instance

/-- The edge-side store invariants: the part of `Graph.WF` that never
mentions the vertex-label map.  `remove_edge` reads and writes only these
structures, so this is the invariant that survives while `remove_vertex`
has already taken the vertex's label out. -/
def Graph.WFE {N E : Type} (g : Graph N E) : Prop :=
  (keys g.edge_labels).Nodup ∧
  (keys g.out_edges).Nodup ∧
  (keys g.in_edges).Nodup ∧
  (keys g.edges).Nodup ∧
  (∀ p ∈ g.edge_labels, (g.edges.lookup p.1).isSome) ∧
  (∀ p ∈ g.edges, (g.edge_labels.lookup p.1).isSome) ∧
  (∀ p ∈ g.out_edges, p.2.Nodup ∧ ∀ e ∈ p.2,
    (g.edges.lookup e).map Prod.fst = some p.1) ∧
  (∀ p ∈ g.in_edges, p.2.Nodup ∧ ∀ e ∈ p.2,
    (g.edges.lookup e).map Prod.snd = some p.1) ∧
  (∀ p ∈ g.edges,
    p.1 ∈ (g.out_edges.lookup p.2.1).getD [] ∧
    p.1 ∈ (g.in_edges.lookup p.2.2).getD [])

/-! ### Concrete store states for the mutation claims -/

/-- A store with a single vertex `0` (label `7`) carrying a self-loop
edge `0` (label `5`). -/
def storeSelfLoop : Graph Nat Nat :=
  let a := (Graph.new Nat Nat).add_vertex 7
  (a.1.add_edge 5 a.2 a.2).1

/-- A store with vertices `0, 1, 2` and edges `0 → 1` and `2 → 0`, so
vertex `0` has successor `1` and predecessor `2`. -/
def storeAdj : Graph Nat Nat :=
  let a := (Graph.new Nat Nat).add_vertex 10
  let b := a.1.add_vertex 11
  let c := b.1.add_vertex 12
  let d := (c.1.add_edge 0 a.2 b.2).1
  (d.add_edge 1 c.2 a.2).1

/-- A store with two vertices `0, 1` and one edge `0 → 1`, plus a removed
vertex handle `2` that no longer exists. -/
def storeTwo : Graph Nat Nat :=
  let a := (Graph.new Nat Nat).add_vertex 20
  let b := a.1.add_vertex 21
  (b.1.add_edge 3 a.2 b.2).1

end Store

namespace RustGraphAlgos

/-! # Theorems -/

/-! ## Reachability helpers -/

/-- Reachability stays inside any set that contains `start` and is closed
under the graph's edges. -/
lemma reachable_closed (g : DiGraph) (S : List Nat) (start v : Nat)
    (hs : start ∈ S) (hcl : ∀ e ∈ g.edges, e.1 ∈ S → e.2 ∈ S)
    (h : g.Reachable start v) : v ∈ S := by
  induction h with
  | refl => exact hs
  | tail _ hstep ih => exact hcl _ hstep ih

/-! ## Association-list lemmas -/


/-- A successful lookup exhibits a member. -/
lemma lookup_mem {β : Type _} :
    ∀ {l : List (Nat × β)} {k : Nat} {v : β},
      l.lookup k = some v → (k, v) ∈ l := by
  intro l
  induction l with
  | nil => intro k v h; simp [List.lookup] at h
  | cons a t ih =>
    intro k v h
    obtain ⟨a1, a2⟩ := a
    by_cases hk : k = a1
    · subst hk
      simp [List.lookup] at h
      subst h
      exact List.mem_cons_self _ _
    · have hb : (k == a1) = false := by simpa using hk
      simp [List.lookup, hb] at h
      exact List.mem_cons_of_mem _ (ih h)

/-- With distinct keys, a member determines the lookup. -/
lemma mem_lookup {β : Type _} :
    ∀ {l : List (Nat × β)} {k : Nat} {v : β},
      (keys l).Nodup → (k, v) ∈ l → l.lookup k = some v := by
  intro l
  induction l with
  | nil => intro k v _ h; simp at h
  | cons a t ih =>
    intro k v hnd h
    obtain ⟨a1, a2⟩ := a
    simp only [keys, List.map_cons, List.nodup_cons] at hnd
    rcases List.mem_cons.mp h with heq | h2
    · cases heq
      simp [List.lookup]
    · have hk : k ≠ a1 := by
        rintro rfl
        exact hnd.1 (List.mem_map.mpr ⟨(k, v), h2, rfl⟩)
      have hb : (k == a1) = false := by simpa using hk
      simp only [List.lookup, hb]
      exact ih hnd.2 h2

/-- Lookup misses when no pair carries the key. -/
lemma lookup_eq_none_of_forall {β : Type _} {k : Nat} :
    ∀ {l : List (Nat × β)}, (∀ p ∈ l, p.1 ≠ k) → l.lookup k = none := by
  intro l
  induction l with
  | nil => intro _; simp [List.lookup]
  | cons a t ih =>
    intro h
    obtain ⟨a1, a2⟩ := a
    have hb : (k == a1) = false := by
      simpa using (h (a1, a2) (List.mem_cons_self _ _)).symm
    simp only [List.lookup, hb]
    exact ih (fun p hp => h p (List.mem_cons_of_mem _ hp))

/-- Reading through `alInsert`. -/
lemma alInsert_lookup {β : Type _} :
    ∀ (l : List (Nat × β)) (k : Nat) (v : β) (k' : Nat),
      (alInsert l k v).lookup k' = if k' = k then some v else l.lookup k' := by
  intro l
  induction l with
  | nil =>
    intro k v k'
    by_cases hk : k' = k
    · simp [alInsert, List.lookup, hk]
    · have hb : (k' == k) = false := by simpa using hk
      simp [alInsert, List.lookup, hb, hk]
  | cons a t ih =>
    intro k v k'
    obtain ⟨a1, a2⟩ := a
    by_cases hak : a1 = k
    · subst hak
      by_cases hk : k' = a1
      · subst hk
        simp [alInsert, List.lookup]
      · have hb : (k' == a1) = false := by simpa using hk
        simp [alInsert, List.lookup, hb, hk]
    · by_cases hk' : k' = a1
      · subst hk'
        have hnk : ¬ k' = k := hak
        have hb : (k' == k) = false := by simpa using hnk
        simp [alInsert, hak, List.lookup, hnk]
      · have hb : (k' == a1) = false := by simpa using hk'
        simp [alInsert, hak, List.lookup, hb, ih]

/-- Unfolding `alRemove` one entry at a time. -/
lemma alRemove_cons {β : Type _} (a : Nat × β) (t : List (Nat × β)) (k : Nat) :
    alRemove (a :: t) k =
      if a.1 = k then alRemove t k else a :: alRemove t k := by
  by_cases h : a.1 = k <;> simp [alRemove, List.filter_cons, h]

/-- Reading through `alRemove`. -/
lemma alRemove_lookup {β : Type _} (k : Nat) :
    ∀ (l : List (Nat × β)) (k' : Nat),
      (alRemove l k).lookup k' = if k' = k then none else l.lookup k' := by
  intro l
  induction l with
  | nil =>
    intro k'
    by_cases hk : k' = k <;> simp [alRemove, List.lookup, hk]
  | cons a t ih =>
    intro k'
    obtain ⟨a1, a2⟩ := a
    rw [alRemove_cons]
    by_cases hak : a1 = k
    · rw [if_pos hak, ih]
      by_cases hk : k' = k
      · simp [hk]
      · have hb : (k' == a1) = false := by
          simp only [beq_eq_false_iff_ne, ne_eq]
          intro hh
          exact hk (hh.trans hak)
        simp [hk, List.lookup, hb]
    · rw [if_neg hak]
      by_cases hk' : k' = a1
      · subst hk'
        have hnk : ¬ k' = k := hak
        simp [List.lookup, hnk]
      · have hb : (k' == a1) = false := by simpa using hk'
        simp [List.lookup, hb, ih]

/-! ## Claim C6: Scenario B end to end -/

/-- C6: on the 9-vertex Scenario B graph with start `0`, feeding the map
produced by `immediate_dominator` into `dominance_frontiers` yields exactly
`DF(0)=∅, DF(1)={1}, DF(2)={3}, DF(3)={1}, DF(4)=∅, DF(5)={3}, DF(6)={7},
DF(7)={3}, DF(8)={7}`. -/
theorem C6_scenarioB_frontiers :
    (immediate_dominator 20 0 scenarioB).bind
        (fun m => dominance_frontiers m scenarioB) =
      some [(0, []), (1, [1]), (2, [3]), (3, [1]), (4, []), (5, [3]),
        (6, [7]), (7, [3]), (8, [7])] := by
  decide

/-! ## Claim C1: behaviour on unreachable vertices -/

/-- On `gUnreach`, vertex `2` is not reachable from `0`. -/
lemma gUnreach_not_reachable : ¬ gUnreach.Reachable 0 2 := by
  intro h
  have h2 := reachable_closed gUnreach [0, 1] 0 2 (by decide)
    (by decide) h
  simp at h2

/-- C1 is false as stated: `gUnreach` has the non-start vertex `2`
unreachable from start `0`, yet `immediate_dominator` does not abort — it
returns the partial map `{0 ↦ 0, 1 ↦ 0}` that omits `2`. -/
theorem C1_counterexample :
    2 ∈ gUnreach.vertices ∧ 2 ≠ 0 ∧ ¬ gUnreach.Reachable 0 2 ∧
      immediate_dominator 5 0 gUnreach = some [(0, 0), (1, 0)] :=
  ⟨by decide, by decide, gUnreach_not_reachable, by decide⟩

/-! ## Claim C2: `dominators` and `dominance_frontiers` on unreachable
vertices -/

/-- On `gCycle`, vertex `2` is not reachable from `0`. -/
lemma gCycle_not_reachable : ¬ gCycle.Reachable 0 2 := by
  intro h
  have h2 := reachable_closed gCycle [0, 1] 0 2 (by decide)
    (by decide) h
  simp at h2

/-- C2 is false as stated: on `gCycle` the vertex `2` is unreachable from
start `0`, yet `dominators` maps it to `[0, 1, 2, 3]` rather than `[2]`
(its unreachable cycle keeps the intersection large), and
`dominance_frontiers`, fed the map `immediate_dominator` produces, aborts
on the missing idom entry of the unreachable predecessor `2` of the join
vertex `1` instead of returning normally. -/
theorem C2_counterexample :
    2 ∈ gCycle.vertices ∧ ¬ gCycle.Reachable 0 2 ∧
      (dominators 0 gCycle).map (fun m => m.lookup 2) =
        some (some [0, 1, 2, 3]) ∧
      immediate_dominator 5 0 gCycle = some [(0, 0), (1, 0)] ∧
      dominance_frontiers [(0, 0), (1, 0)] gCycle = none :=
  ⟨by decide, gCycle_not_reachable, by decide, by decide, by decide⟩

/-! ## The depth-first traversal: basic facts -/

/-- Unfolding `dfsPost` at positive fuel. -/
lemma dfsPost_succ (g : DiGraph) (fuel : Nat) (v : Nat)
    (st : List Nat × List Nat) :
    dfsPost g (fuel + 1) v st =
      if v ∈ st.1 then st
      else
        ((((g.outAdj v).foldl (fun s w => dfsPost g fuel w s)
            (v :: st.1, st.2))).1,
         (((g.outAdj v).foldl (fun s w => dfsPost g fuel w s)
            (v :: st.1, st.2))).2 ++ [v]) := by
  rfl

/-- Reachability stays inside the vertex list of a well-formed graph. -/
lemma reachable_mem (g : DiGraph) (hWF : g.WF) {v x : Nat}
    (hv : v ∈ g.vertices) (h : g.Reachable v x) : x ∈ g.vertices := by
  induction h with
  | refl => exact hv
  | tail _ hstep _ => exact (hWF.2 _ hstep).2

/-- A member of the successor list steps along an edge. -/
lemma outAdj_step (g : DiGraph) {u w : Nat} (h : w ∈ g.outAdj u) :
    g.EdgeStep u w := by
  unfold DiGraph.outAdj at h
  rcases List.mem_map.mp h with ⟨e, he, rfl⟩
  have := List.mem_filter.mp he
  have he1 : e.1 = u := by simpa using this.2
  have : (u, e.2) ∈ g.edges := by
    rw [← he1]
    simpa using this.1
  exact this

/-- The visited list only grows, through a successor fold. -/
lemma foldDfs_mono (g : DiGraph) (n : Nat)
    (H : ∀ (v : Nat) (st : List Nat × List Nat) (x : Nat),
      x ∈ st.1 → x ∈ (dfsPost g n v st).1) :
    ∀ (ws : List Nat) (st : List Nat × List Nat) (x : Nat),
      x ∈ st.1 → x ∈ (ws.foldl (fun s w => dfsPost g n w s) st).1 := by
  intro ws
  induction ws with
  | nil => intro st x hx; exact hx
  | cons w ws ihw =>
    intro st x hx
    exact ihw _ x (H w st x hx)

/-- The visited list only grows. -/
lemma dfs_vis_mono (g : DiGraph) :
    ∀ (fuel : Nat) (v : Nat) (st : List Nat × List Nat) (x : Nat),
      x ∈ st.1 → x ∈ (dfsPost g fuel v st).1 := by
  intro fuel
  induction fuel with
  | zero => intro v st x hx; exact hx
  | succ n ih =>
    intro v st x hx
    rw [dfsPost_succ]
    by_cases hv : v ∈ st.1
    · simpa [hv] using hx
    · simp only [hv, if_false]
      exact foldDfs_mono g n ih _ _ x (List.mem_cons_of_mem _ hx)

/-- The output list only grows, through a successor fold. -/
lemma foldDfs_out_append (g : DiGraph) (n : Nat)
    (H : ∀ (v : Nat) (st : List Nat × List Nat),
      ∃ d, (dfsPost g n v st).2 = st.2 ++ d) :
    ∀ (ws : List Nat) (st : List Nat × List Nat),
      ∃ d, (ws.foldl (fun s w => dfsPost g n w s) st).2 = st.2 ++ d := by
  intro ws
  induction ws with
  | nil => intro st; exact ⟨[], by simp⟩
  | cons w ws ihw =>
    intro st
    rcases H w st with ⟨d1, hd1⟩
    rcases ihw (dfsPost g n w st) with ⟨d2, hd2⟩
    exact ⟨d1 ++ d2, by rw [List.foldl_cons, hd2, hd1, List.append_assoc]⟩

/-- The output list only grows. -/
lemma dfs_out_append (g : DiGraph) :
    ∀ (fuel : Nat) (v : Nat) (st : List Nat × List Nat),
      ∃ d, (dfsPost g fuel v st).2 = st.2 ++ d := by
  intro fuel
  induction fuel with
  | zero => intro v st; exact ⟨[], (List.append_nil st.2).symm⟩
  | succ n ih =>
    intro v st
    rw [dfsPost_succ]
    by_cases hv : v ∈ st.1
    · exact ⟨[], by simp [hv]⟩
    · simp only [hv, if_false]
      rcases foldDfs_out_append g n ih (g.outAdj v) (v :: st.1, st.2) with
        ⟨d, hd⟩
      exact ⟨d ++ [v], by rw [hd, List.append_assoc]⟩

/-- Everything newly visited is reachable from the explored root, through
a successor fold. -/
lemma foldDfs_sound (g : DiGraph) (n : Nat)
    (H : ∀ (v : Nat) (st : List Nat × List Nat) (x : Nat),
      x ∈ (dfsPost g n v st).1 → x ∈ st.1 ∨ g.Reachable v x) :
    ∀ (ws : List Nat) (st : List Nat × List Nat) (x : Nat),
      x ∈ (ws.foldl (fun s w => dfsPost g n w s) st).1 →
        x ∈ st.1 ∨ ∃ w ∈ ws, g.Reachable w x := by
  intro ws
  induction ws with
  | nil => intro st x hx; exact Or.inl hx
  | cons w ws ihw =>
    intro st x hx
    rcases ihw _ x hx with hx' | ⟨w', hw', hr⟩
    · rcases H w st x hx' with hx'' | hr
      · exact Or.inl hx''
      · exact Or.inr ⟨w, List.mem_cons_self _ _, hr⟩
    · exact Or.inr ⟨w', List.mem_cons_of_mem _ hw', hr⟩

/-- Everything newly visited is reachable from the explored vertex. -/
lemma dfs_sound (g : DiGraph) :
    ∀ (fuel : Nat) (v : Nat) (st : List Nat × List Nat) (x : Nat),
      x ∈ (dfsPost g fuel v st).1 → x ∈ st.1 ∨ g.Reachable v x := by
  intro fuel
  induction fuel with
  | zero => intro v st x hx; exact Or.inl hx
  | succ n ih =>
    intro v st x hx
    rw [dfsPost_succ] at hx
    by_cases hv : v ∈ st.1
    · simp only [hv, if_true] at hx
      exact Or.inl hx
    · simp only [hv, if_false] at hx
      rcases foldDfs_sound g n ih (g.outAdj v) (v :: st.1, st.2) x hx with
        hx' | ⟨w, hw, hr⟩
      · rcases List.mem_cons.mp hx' with rfl | hx''
        · exact Or.inr Relation.ReflTransGen.refl
        · exact Or.inl hx''
      · exact Or.inr (Relation.ReflTransGen.head (outAdj_step g hw) hr)

/-- Everything visited lies in the vertex list. -/
lemma dfs_vis_vertices (g : DiGraph) (hWF : g.WF) (fuel : Nat) (v : Nat)
    (st : List Nat × List Nat) (hv : v ∈ g.vertices)
    (hvis : ∀ x ∈ st.1, x ∈ g.vertices) :
    ∀ x ∈ (dfsPost g fuel v st).1, x ∈ g.vertices := by
  intro x hx
  rcases dfs_sound g fuel v st x hx with hx' | hr
  · exact hvis x hx'
  · exact reachable_mem g hWF hv hr

/-- The new outputs are exactly the new visiteds, through a successor
fold. -/
lemma foldDfs_outset (g : DiGraph) (n : Nat)
    (H : ∀ (v : Nat) (st : List Nat × List Nat) (x : Nat),
      x ∈ (dfsPost g n v st).2 ↔
        x ∈ st.2 ∨ (x ∈ (dfsPost g n v st).1 ∧ x ∉ st.1)) :
    ∀ (ws : List Nat) (st : List Nat × List Nat) (x : Nat),
      x ∈ (ws.foldl (fun s w => dfsPost g n w s) st).2 ↔
        x ∈ st.2 ∨
          (x ∈ (ws.foldl (fun s w => dfsPost g n w s) st).1 ∧ x ∉ st.1) := by
  intro ws
  induction ws with
  | nil => intro st x; simp
  | cons w ws ihw =>
    intro st x
    rw [List.foldl_cons]
    constructor
    · intro hx
      rcases (ihw (dfsPost g n w st) x).mp hx with hx' | ⟨hx1, hx2⟩
      · rcases (H w st x).mp hx' with hx'' | ⟨hx1, hx2⟩
        · exact Or.inl hx''
        · exact Or.inr
            ⟨foldDfs_mono g n (dfs_vis_mono g n) ws _ x hx1, hx2⟩
      · refine Or.inr ⟨hx1, fun hc => hx2 (dfs_vis_mono g n w st x hc)⟩
    · intro hx
      rcases hx with hx' | ⟨hx1, hx2⟩
      · exact (ihw _ x).mpr (Or.inl ((H w st x).mpr (Or.inl hx')))
      · by_cases hmid : x ∈ (dfsPost g n w st).1
        · exact (ihw _ x).mpr (Or.inl ((H w st x).mpr (Or.inr ⟨hmid, hx2⟩)))
        · exact (ihw _ x).mpr (Or.inr ⟨hx1, hmid⟩)

/-- The new outputs are exactly the new visiteds. -/
lemma dfs_outset (g : DiGraph) :
    ∀ (fuel : Nat) (v : Nat) (st : List Nat × List Nat) (x : Nat),
      x ∈ (dfsPost g fuel v st).2 ↔
        x ∈ st.2 ∨ (x ∈ (dfsPost g fuel v st).1 ∧ x ∉ st.1) := by
  intro fuel
  induction fuel with
  | zero => intro v st x; simp [dfsPost]
  | succ n ih =>
    intro v st x
    rw [dfsPost_succ]
    by_cases hv : v ∈ st.1
    · simp only [hv, if_true]
      exact ⟨fun h => Or.inl h, fun h => by
        rcases h with h | ⟨h1, h2⟩
        · exact h
        · exact absurd h1 h2⟩
    · simp only [hv, if_false, List.mem_append, List.mem_singleton]
      constructor
      · intro hx
        rcases hx with hx | rfl
        · rcases (foldDfs_outset g n ih (g.outAdj v) (v :: st.1, st.2) x).mp
            hx with hx' | ⟨hx1, hx2⟩
          · exact Or.inl hx'
          · exact Or.inr ⟨hx1, fun hc => hx2 (List.mem_cons_of_mem _ hc)⟩
        · refine Or.inr ⟨?_, hv⟩
          exact foldDfs_mono g n (dfs_vis_mono g n) _ _ _
            (List.mem_cons_self _ _)
      · intro hx
        rcases hx with hx' | ⟨hx1, hx2⟩
        · exact Or.inl ((foldDfs_outset g n ih _ _ x).mpr (Or.inl hx'))
        · by_cases hxv : x = v
          · exact Or.inr hxv
          · refine Or.inl ((foldDfs_outset g n ih _ _ x).mpr
              (Or.inr ⟨hx1, ?_⟩))
            simp [hxv, hx2]

/-- The output stays inside the visited list and without duplicates,
through a successor fold. -/
lemma foldDfs_nodup (g : DiGraph) (n : Nat)
    (H : ∀ (v : Nat) (st : List Nat × List Nat),
      st.2.Nodup → (∀ x ∈ st.2, x ∈ st.1) →
        (dfsPost g n v st).2.Nodup ∧
          ∀ x ∈ (dfsPost g n v st).2, x ∈ (dfsPost g n v st).1) :
    ∀ (ws : List Nat) (st : List Nat × List Nat),
      st.2.Nodup → (∀ x ∈ st.2, x ∈ st.1) →
        (ws.foldl (fun s w => dfsPost g n w s) st).2.Nodup ∧
          ∀ x ∈ (ws.foldl (fun s w => dfsPost g n w s) st).2,
            x ∈ (ws.foldl (fun s w => dfsPost g n w s) st).1 := by
  intro ws
  induction ws with
  | nil => intro st h1 h2; exact ⟨h1, h2⟩
  | cons w ws ihw =>
    intro st h1 h2
    rw [List.foldl_cons]
    exact ihw (dfsPost g n w st) (H w st h1 h2).1 (H w st h1 h2).2

/-- The output stays inside the visited list and without duplicates. -/
lemma dfs_nodup (g : DiGraph) :
    ∀ (fuel : Nat) (v : Nat) (st : List Nat × List Nat),
      st.2.Nodup → (∀ x ∈ st.2, x ∈ st.1) →
        (dfsPost g fuel v st).2.Nodup ∧
          ∀ x ∈ (dfsPost g fuel v st).2, x ∈ (dfsPost g fuel v st).1 := by
  intro fuel
  induction fuel with
  | zero => intro v st h1 h2; exact ⟨h1, h2⟩
  | succ n ih =>
    intro v st h1 h2
    rw [dfsPost_succ]
    by_cases hv : v ∈ st.1
    · simp only [hv, if_true]
      exact ⟨h1, h2⟩
    · simp only [hv, if_false]
      have h2' : ∀ x ∈ st.2, x ∈ v :: st.1 :=
        fun x hx => List.mem_cons_of_mem _ (h2 x hx)
      obtain ⟨hnd, hsub⟩ := foldDfs_nodup g n ih (g.outAdj v)
        (v :: st.1, st.2) h1 h2'
      have hvout : v ∉ ((g.outAdj v).foldl (fun s w => dfsPost g n w s)
          (v :: st.1, st.2)).2 := by
        intro hc
        rcases (foldDfs_outset g n (dfs_outset g n) _ _ v).mp hc with
          hc' | ⟨_, hc2⟩
        · exact hv (h2 v hc')
        · exact hc2 (List.mem_cons_self _ _)
      constructor
      · simpa [List.nodup_append] using ⟨hnd, hvout⟩
      · intro x hx
        rcases List.mem_append.mp hx with hx' | hx'
        · exact hsub x hx'
        · rw [List.mem_singleton.mp hx']
          exact foldDfs_mono g n (dfs_vis_mono g n) _ _ _
            (List.mem_cons_self _ _)

/-- Monotone visited lists leave less to explore. -/
lemma unvisited_card_le (g : DiGraph) {vis vis' : List Nat}
    (h : ∀ x ∈ vis, x ∈ vis') :
    (g.vertices.toFinset \ vis'.toFinset).card ≤
      (g.vertices.toFinset \ vis.toFinset).card := by
  apply Finset.card_le_card
  intro x hx
  rw [Finset.mem_sdiff] at hx ⊢
  exact ⟨hx.1, fun hc => hx.2 (by
    rw [List.mem_toFinset] at hc ⊢
    exact h x hc)⟩

/-- With enough fuel, a successor fold visits all the listed successors
and closes the newly visited region under successors. -/
lemma foldDfs_complete (g : DiGraph) (hWF : g.WF) (n : Nat)
    (H : ∀ (v : Nat) (st : List Nat × List Nat),
      v ∈ g.vertices → (∀ x ∈ st.1, x ∈ g.vertices) →
      (g.vertices.toFinset \ st.1.toFinset).card ≤ n →
      v ∈ (dfsPost g n v st).1 ∧
        ∀ u, u ∈ (dfsPost g n v st).1 → u ∉ st.1 →
          ∀ w ∈ g.outAdj u, w ∈ (dfsPost g n v st).1) :
    ∀ (ws : List Nat) (st : List Nat × List Nat),
      (∀ w ∈ ws, w ∈ g.vertices) → (∀ x ∈ st.1, x ∈ g.vertices) →
      (g.vertices.toFinset \ st.1.toFinset).card ≤ n →
      (∀ w ∈ ws, w ∈ (ws.foldl (fun s w => dfsPost g n w s) st).1) ∧
        ∀ u, u ∈ (ws.foldl (fun s w => dfsPost g n w s) st).1 → u ∉ st.1 →
          ∀ w ∈ g.outAdj u,
            w ∈ (ws.foldl (fun s w => dfsPost g n w s) st).1 := by
  intro ws
  induction ws with
  | nil =>
    intro st _ _ _
    refine ⟨by simp, fun u hu hu' w hw => absurd hu hu'⟩
  | cons w ws ihw =>
    intro st hws hvis hfuel
    have hw : w ∈ g.vertices := hws w (List.mem_cons_self _ _)
    obtain ⟨hwin, hclo1⟩ := H w st hw hvis hfuel
    have hvis' : ∀ x ∈ (dfsPost g n w st).1, x ∈ g.vertices :=
      dfs_vis_vertices g hWF n w st hw hvis
    have hfuel' : (g.vertices.toFinset \
        (dfsPost g n w st).1.toFinset).card ≤ n :=
      le_trans (unvisited_card_le g (fun x hx => dfs_vis_mono g n w st x hx))
        hfuel
    obtain ⟨hmem, hclo2⟩ := ihw (dfsPost g n w st)
      (fun w' hw' => hws w' (List.mem_cons_of_mem _ hw')) hvis' hfuel'
    rw [List.foldl_cons]
    constructor
    · intro w' hw'
      rcases List.mem_cons.mp hw' with rfl | hw''
      · exact foldDfs_mono g n (dfs_vis_mono g n) ws _ _ hwin
      · exact hmem w' hw''
    · intro u hu hu' w' hw'
      by_cases hmid : u ∈ (dfsPost g n w st).1
      · exact foldDfs_mono g n (dfs_vis_mono g n) ws _ _
          (hclo1 u hmid hu' w' hw')
      · exact hclo2 u hu hmid w' hw'

/-- With enough fuel, the traversal visits its root and the newly visited
region is closed under successors. -/
lemma dfs_complete (g : DiGraph) (hWF : g.WF) :
    ∀ (fuel : Nat) (v : Nat) (st : List Nat × List Nat),
      v ∈ g.vertices → (∀ x ∈ st.1, x ∈ g.vertices) →
      (g.vertices.toFinset \ st.1.toFinset).card ≤ fuel →
      v ∈ (dfsPost g fuel v st).1 ∧
        ∀ u, u ∈ (dfsPost g fuel v st).1 → u ∉ st.1 →
          ∀ w ∈ g.outAdj u, w ∈ (dfsPost g fuel v st).1 := by
  intro fuel
  induction fuel with
  | zero =>
    intro v st hv hvis hfuel
    have hvin : v ∈ st.1 := by
      by_contra hc
      have : v ∈ g.vertices.toFinset \ st.1.toFinset := by
        rw [Finset.mem_sdiff, List.mem_toFinset, List.mem_toFinset]
        exact ⟨hv, hc⟩
      have := Finset.card_pos.mpr ⟨v, this⟩
      omega
    exact ⟨hvin, fun u hu hu' w hw => absurd hu hu'⟩
  | succ n ih =>
    intro v st hv hvis hfuel
    rw [dfsPost_succ]
    by_cases hvst : v ∈ st.1
    · rw [if_pos hvst]
      exact ⟨hvst, fun u hu hu' w hw => absurd hu hu'⟩
    · rw [if_neg hvst]
      have hvis1 : ∀ x ∈ v :: st.1, x ∈ g.vertices := by
        intro x hx
        rcases List.mem_cons.mp hx with rfl | hx'
        · exact hv
        · exact hvis x hx'
      have hfuel1 : (g.vertices.toFinset \ (v :: st.1).toFinset).card ≤ n := by
        have hvmem : v ∈ g.vertices.toFinset \ st.1.toFinset := by
          rw [Finset.mem_sdiff, List.mem_toFinset, List.mem_toFinset]
          exact ⟨hv, hvst⟩
        have : g.vertices.toFinset \ (v :: st.1).toFinset =
            (g.vertices.toFinset \ st.1.toFinset).erase v := by
          ext y
          simp [Finset.mem_sdiff, Finset.mem_erase, List.mem_toFinset]
          tauto
        rw [this, Finset.card_erase_of_mem hvmem]
        omega
      have hadj : ∀ w ∈ g.outAdj v, w ∈ g.vertices := by
        intro w hw
        exact (hWF.2 _ (outAdj_step g hw)).2
      obtain ⟨hmem, hclo⟩ := foldDfs_complete g hWF n ih (g.outAdj v)
        (v :: st.1, st.2) hadj hvis1 hfuel1
      constructor
      · exact foldDfs_mono g n (dfs_vis_mono g n) _ _ _
          (List.mem_cons_self _ _)
      · intro u hu hu' w hw
        by_cases huv : u = v
        · subst huv
          exact hmem w hw
        · refine hclo u hu ?_ w hw
          simp [huv, hu']

/-- An edge membership gives a successor-list membership. -/
lemma mem_outAdj_of_edge (g : DiGraph) {u w : Nat} (h : (u, w) ∈ g.edges) :
    w ∈ g.outAdj u := by
  unfold DiGraph.outAdj
  exact List.mem_map.mpr ⟨(u, w), List.mem_filter.mpr ⟨h, by simp⟩, rfl⟩

/-- Soundness of the postorder traversal: only reachable vertices appear
(no well-formedness needed). -/
lemma postorder_sound (g : DiGraph) (start : Nat) {x : Nat}
    (hx : x ∈ postorder g start) : g.Reachable start x := by
  unfold postorder at hx
  have hvis : x ∈ (dfsPost g (g.vertices.length) start ([], [])).1 := by
    rcases (dfs_outset g _ start ([], []) x).mp hx with hx' | ⟨hx1, _⟩
    · simp at hx'
    · exact hx1
  rcases dfs_sound g _ start ([], []) x hvis with hx' | hr
  · simp at hx'
  · exact hr

/-- Completeness of the postorder traversal on well-formed graphs: every
reachable vertex appears. -/
lemma postorder_complete (g : DiGraph) (hWF : g.WF) {start x : Nat}
    (hstart : start ∈ g.vertices) (hx : g.Reachable start x) :
    x ∈ postorder g start := by
  have hfuel : (g.vertices.toFinset \ ([] : List Nat).toFinset).card ≤
      g.vertices.length := by
    simpa using List.toFinset_card_le g.vertices
  obtain ⟨hin, hclo⟩ := dfs_complete g hWF (g.vertices.length) start ([], [])
    hstart (by simp) hfuel
  have hvis : x ∈ (dfsPost g (g.vertices.length) start ([], [])).1 := by
    clear hfuel
    induction hx with
    | refl => exact hin
    | tail _ hstep ih =>
      exact hclo _ ih (by simp) _ (mem_outAdj_of_edge g hstep)
  unfold postorder
  exact (dfs_outset g _ start ([], []) x).mpr (Or.inr ⟨hvis, by simp⟩)

/-- The postorder sequence has no duplicates. -/
lemma postorder_nodup (g : DiGraph) (start : Nat) :
    (postorder g start).Nodup :=
  (dfs_nodup g (g.vertices.length) start ([], []) (by simp) (by simp)).1

/-- The postorder sequence ends with the start vertex. -/
lemma postorder_last (g : DiGraph) {start : Nat}
    (hstart : start ∈ g.vertices) :
    ∃ pre, postorder g start = pre ++ [start] := by
  unfold postorder
  cases hl : g.vertices.length with
  | zero =>
    rw [List.length_eq_zero] at hl
    rw [hl] at hstart
    simp at hstart
  | succ m =>
    rw [dfsPost_succ]
    simp only [List.not_mem_nil, if_false]
    exact ⟨_, rfl⟩

/-- Membership in the reverse postorder sequence. -/
lemma rpoList_mem (g : DiGraph) (start x : Nat) :
    x ∈ rpoList g start ↔ x ∈ postorder g start := by
  unfold rpoList
  exact List.mem_reverse

/-- The reverse postorder sequence starts with the start vertex. -/
lemma rpoList_head (g : DiGraph) {start : Nat}
    (hstart : start ∈ g.vertices) :
    ∃ rest, rpoList g start = start :: rest := by
  rcases postorder_last g hstart with ⟨pre, hpre⟩
  exact ⟨pre.reverse, by rw [rpoList, hpre]; simp⟩

/-! ## Key bookkeeping of `immediate_dominator` -/

/-- One processed vertex changes at most its own binding (and keeps all
existing ones). -/
lemma chkStep_keys (g : DiGraph) (rpo : List Nat)
    {st : List (Nat × Nat) × Bool} {b : Nat}
    {st' : List (Nat × Nat) × Bool}
    (h : chkStep g rpo st b = some st') :
    ∀ k, (st'.1.lookup k).isSome ↔ (st.1.lookup k).isSome ∨ k = b := by
  intro k
  unfold chkStep at h
  cases hnew : chkNewIdom rpo st.1 b ((g.inEdges b).map (fun e => e.1)) with
  | none => rw [hnew] at h; simp at h
  | some new =>
    rw [hnew] at h
    cases new with
    | none => simp at h
    | some d =>
      simp only [Option.bind_eq_bind, Option.some_bind] at h
      by_cases heq : st.1.lookup b = some d
      · rw [if_pos heq] at h
        cases h
        constructor
        · exact fun hk => Or.inl hk
        · rintro (hk | rfl)
          · exact hk
          · rw [heq]; rfl
      · rw [if_neg heq] at h
        cases h
        simp only [alInsert_lookup]
        by_cases hk : k = b <;> simp [hk]

/-- A pass changes exactly the bindings of the vertices it processes. -/
lemma chkFoldPass_keys (g : DiGraph) (rpo : List Nat) :
    ∀ (bs : List Nat) (st : List (Nat × Nat) × Bool)
      (st' : List (Nat × Nat) × Bool),
      bs.foldlM (fun st b => chkStep g rpo st b) st = some st' →
      ∀ k, (st'.1.lookup k).isSome ↔ (st.1.lookup k).isSome ∨ k ∈ bs := by
  intro bs
  induction bs with
  | nil =>
    intro st st' h k
    cases h
    simp
  | cons b bs ih =>
    intro st st' h k
    rw [List.foldlM_cons] at h
    cases hstep : chkStep g rpo st b with
    | none => rw [hstep] at h; simp at h
    | some st1 =>
      rw [hstep] at h
      simp only [Option.bind_eq_bind, Option.some_bind] at h
      rw [ih st1 st' h k, chkStep_keys g rpo hstep k]
      constructor
      · rintro ((hk | rfl) | hk)
        · exact Or.inl hk
        · exact Or.inr (List.mem_cons_self _ _)
        · exact Or.inr (List.mem_cons_of_mem _ hk)
      · rintro (hk | hk)
        · exact Or.inl (Or.inl hk)
        · rcases List.mem_cons.mp hk with rfl | hk'
          · exact Or.inl (Or.inr rfl)
          · exact Or.inr hk'

/-- The loop preserves the key description of a pass. -/
lemma chkLoop_keys (g : DiGraph) (rpo : List Nat) (start : Nat) :
    ∀ (fuel : Nat) (ret : List (Nat × Nat)) (m : List (Nat × Nat)),
      chkLoop g rpo start fuel ret = some m →
      ∀ k, (m.lookup k).isSome ↔
        (ret.lookup k).isSome ∨ k ∈ rpo.filter (fun v => v ≠ start) := by
  intro fuel
  induction fuel with
  | zero => intro ret m h; simp [chkLoop] at h
  | succ n ih =>
    intro ret m h k
    unfold chkLoop at h
    cases hpass : chkPass g rpo start ret with
    | none => rw [hpass] at h; simp at h
    | some st =>
      rw [hpass] at h
      simp only [Option.bind_eq_bind, Option.some_bind] at h
      unfold chkPass at hpass
      by_cases hfix : st.2
      · rw [if_pos hfix] at h
        cases h
        exact chkFoldPass_keys g rpo _ _ _ hpass k
      · rw [if_neg hfix] at h
        rw [ih _ _ h k, chkFoldPass_keys g rpo _ _ _ hpass k]
        tauto

/-- The key set of any map `immediate_dominator` returns: the start vertex
together with the processed reverse-postorder vertices. -/
lemma immediate_dominator_keys {fuel start : Nat} {g : DiGraph}
    {m : List (Nat × Nat)}
    (h : immediate_dominator fuel start g = some m) (k : Nat) :
    (m.lookup k).isSome ↔ k = start ∨ k ∈ rpoList g start := by
  unfold immediate_dominator at h
  rw [chkLoop_keys g _ start fuel _ m h k]
  constructor
  · rintro (hk | hk)
    · left
      by_cases hc : k = start
      · exact hc
      · exfalso
        have hb : (k == start) = false := by simpa using hc
        simp [List.lookup, hb] at hk
    · exact Or.inr ((List.mem_filter.mp hk).1)
  · rintro (rfl | hk)
    · left; simp [List.lookup]
    · by_cases hks : k = start
      · subst hks; left; simp [List.lookup]
      · right
        exact List.mem_filter.mpr ⟨hk, by simpa using hks⟩

/-- Unreachable vertices are never keys of a returned idom map. -/
lemma idom_unreachable_none {fuel start : Nat} {g : DiGraph}
    {m : List (Nat × Nat)} {v : Nat}
    (hrun : immediate_dominator fuel start g = some m)
    (hunreach : ¬ g.Reachable start v) :
    m.lookup v = none := by
  cases hlk : m.lookup v with
  | none => rfl
  | some w =>
    exfalso
    have hk := (immediate_dominator_keys hrun v).mp (by simp [hlk])
    rcases hk with rfl | hk
    · exact hunreach Relation.ReflTransGen.refl
    · exact hunreach (postorder_sound g start ((rpoList_mem g start v).mp hk))

/-- C1 corrected: when `immediate_dominator` returns a map at all, that
map omits every vertex that is not reachable from the start vertex; on a
graph with unreachable vertices it can return such a partial map rather
than abort. -/
theorem C1_unreachable_omitted {fuel start : Nat} {g : DiGraph}
    {m : List (Nat × Nat)} {v : Nat}
    (hrun : immediate_dominator fuel start g = some m)
    (hunreach : ¬ g.Reachable start v) :
    m.lookup v = none :=
  idom_unreachable_none hrun hunreach

/-- Witness for the corrected C1 on `gUnreach`. -/
theorem C1_unreachable_omitted_witness :
    List.lookup 2 [(0, 0), (1, 0)] = none :=
  @C1_unreachable_omitted 5 0 gUnreach [(0, 0), (1, 0)] 2 (by decide)
    gUnreach_not_reachable

/-- C10: whenever `immediate_dominator` returns a map on a well-formed
graph, the key set of that map is exactly the set of vertices reachable
from the start vertex (the start vertex included). -/
theorem C10_keys_reachable {fuel start : Nat} {g : DiGraph}
    {m : List (Nat × Nat)}
    (hWF : g.WF) (hstart : start ∈ g.vertices)
    (hrun : immediate_dominator fuel start g = some m) (v : Nat) :
    (m.lookup v).isSome ↔ g.Reachable start v := by
  rw [immediate_dominator_keys hrun v]
  constructor
  · rintro (rfl | hk)
    · exact Relation.ReflTransGen.refl
    · exact postorder_sound g start ((rpoList_mem g start v).mp hk)
  · intro hr
    exact Or.inr ((rpoList_mem g start v).mpr
      (postorder_complete g hWF hstart hr))

/-- Witness for C10 on `gUnreach`: vertex `1` is reachable from `0`, so it
is a key of the returned map. -/
theorem C10_keys_reachable_witness :
    (List.lookup 1 [(0, 0), (1, 0)]).isSome = true :=
  (@C10_keys_reachable 5 0 gUnreach [(0, 0), (1, 0)] (by decide) (by decide)
    (by decide) 1).mpr (Relation.ReflTransGen.single
      (show (0, 1) ∈ gUnreach.edges by decide))

/-! ## Claim C5: termination of the `dominators` fixpoint loop -/

/-- Looking a vertex up in a built state. -/
lemma lookup_map_self {β : Type _} (f : Nat → β) :
    ∀ (l : List Nat) (v : Nat),
      (l.map (fun v => (v, f v))).lookup v =
        if v ∈ l then some (f v) else none := by
  intro l
  induction l with
  | nil => intro v; simp
  | cons a t ih =>
    intro v
    by_cases hv : v = a
    · simp [List.lookup, hv]
    · have hb : (v == a) = false := by simpa using hv
      simp [List.lookup, hb, hv, ih]

/-- Reading a built state back. -/
lemma curFun_domState (g : DiGraph) (f : Nat → Finset Nat) (v : Nat) :
    curFun (domState g f) v = if v ∈ g.vertices then f v else ∅ := by
  unfold curFun domState
  rw [lookup_map_self]
  by_cases hv : v ∈ g.vertices <;> simp [hv]

/-- States built from functions that agree on the vertices are equal. -/
lemma domState_congr (g : DiGraph) {f f' : Nat → Finset Nat}
    (h : ∀ v ∈ g.vertices, f v = f' v) : domState g f = domState g f' :=
  List.map_congr_left (fun a ha => by rw [h a ha])

/-- An intersection fold shrinks its accumulator. -/
lemma foldl_inter_subset :
    ∀ (ds : List (Finset Nat)) (d : Finset Nat), ds.foldl (· ∩ ·) d ⊆ d := by
  intro ds
  induction ds with
  | nil => intro d; simp
  | cons a t ih =>
    intro d
    simp only [List.foldl_cons]
    exact (ih (d ∩ a)).trans Finset.inter_subset_left

/-- An intersection fold is monotone in both the accumulator and the
mapped sets. -/
lemma foldl_inter_mono {α : Type _} (F F' : α → Finset Nat)
    (hF : ∀ x, F x ⊆ F' x) :
    ∀ (l : List α) (d d' : Finset Nat), d ⊆ d' →
      (l.map F).foldl (· ∩ ·) d ⊆ (l.map F').foldl (· ∩ ·) d' := by
  intro l
  induction l with
  | nil => intro d d' h; simpa using h
  | cons a t ih =>
    intro d d' h
    simp only [List.map_cons, List.foldl_cons]
    exact ih _ _ (Finset.inter_subset_inter h (hF a))

/-- One recomputed set is monotone in the current buffer. -/
lemma domNext_mono (g : DiGraph) (start : Nat) {cur cur' : Nat → Finset Nat}
    (h : ∀ u, cur u ⊆ cur' u) (v : Nat) :
    domNext g start cur v ⊆ domNext g start cur' v := by
  unfold domNext
  by_cases hv : v = start
  · simp [hv]
  · simp only [hv, if_false]
    cases he : g.inEdges v with
    | nil => simp
    | cons e es =>
      simp only [List.map_cons]
      exact Finset.insert_subset_insert _
        (foldl_inter_mono (fun e => cur e.1) (fun e => cur' e.1)
          (fun x => h x.1) es _ _ (h e.1))

/-- The pass transformer is monotone (with respect to agreement on the
vertex list; other values are never read). -/
lemma domF_mono (g : DiGraph) (start : Nat) {f f' : Nat → Finset Nat}
    (h : ∀ u ∈ g.vertices, f u ⊆ f' u) (v : Nat) :
    domF g start f v ⊆ domF g start f' v := by
  unfold domF
  apply domNext_mono
  intro u
  rw [curFun_domState, curFun_domState]
  by_cases hu : u ∈ g.vertices <;> simp [hu]
  exact h u hu

/-- The pass transformer stays below the universal set on vertices. -/
lemma domF_bounded (g : DiGraph) (start : Nat) {f : Nat → Finset Nat}
    (h : ∀ u ∈ g.vertices, f u ⊆ g.allSet) {v : Nat}
    (hv : v ∈ g.vertices) : domF g start f v ⊆ g.allSet := by
  have hcur : ∀ u, curFun (domState g f) u ⊆ g.allSet := by
    intro u
    rw [curFun_domState]
    by_cases hu : u ∈ g.vertices <;> simp [hu]
    exact h u hu
  unfold domF domNext
  by_cases hs : v = start
  · simpa [hs, DiGraph.allSet] using (hs ▸ hv)
  · simp only [hs, if_false]
    cases he : (g.inEdges v).map (fun e => curFun (domState g f) e.1) with
    | nil => simpa [DiGraph.allSet] using hv
    | cons d ds =>
      rw [Finset.insert_subset_iff]
      constructor
      · simpa [DiGraph.allSet] using hv
      · have hd : d ∈ (g.inEdges v).map (fun e => curFun (domState g f) e.1) := by
          rw [he]; exact List.mem_cons_self _ _
        rcases List.mem_map.mp hd with ⟨e, _, rfl⟩
        exact (foldl_inter_subset ds _).trans (hcur e.1)

/-- Pointwise shrinking with one strict shrink makes the size sum drop. -/
lemma sum_card_lt {l : List Nat} {F G : Nat → Finset Nat}
    (hle : ∀ v ∈ l, F v ⊆ G v) (hne : ∃ v ∈ l, F v ≠ G v) :
    (l.map (fun v => (F v).card)).sum < (l.map (fun v => (G v).card)).sum := by
  induction l with
  | nil => simp at hne
  | cons a t ih =>
    simp only [List.map_cons, List.sum_cons]
    by_cases ha : F a = G a
    · have hne' : ∃ v ∈ t, F v ≠ G v := by
        rcases hne with ⟨v, hv, hvne⟩
        rcases List.mem_cons.mp hv with rfl | hv
        · exact absurd ha hvne
        · exact ⟨v, hv, hvne⟩
      have := ih (fun v hv => hle v (List.mem_cons_of_mem _ hv)) hne'
      rw [ha]
      omega
    · have h1 : (F a).card < (G a).card :=
        Finset.card_lt_card (Finset.ssubset_iff_subset_ne.mpr
          ⟨hle a (List.mem_cons_self _ _), ha⟩)
      have h2 : (t.map (fun v => (F v).card)).sum ≤
          (t.map (fun v => (G v).card)).sum :=
        List.sum_le_sum (fun v hv =>
          Finset.card_le_card (hle v (List.mem_cons_of_mem _ hv)))
      omega

/-- The loop returns once the fuel exceeds the measure of a state from
which every pass shrinks. -/
lemma domLoop_isSome (g : DiGraph) (start : Nat) :
    ∀ (fuel : Nat) (f : Nat → Finset Nat),
      (∀ v ∈ g.vertices, domF g start f v ⊆ f v) →
      domMeasure g f < fuel →
      (domLoop g start fuel (domState g f)).isSome := by
  intro fuel
  induction fuel with
  | zero => intro f _ h; exact absurd h (Nat.not_lt_zero _)
  | succ n ih =>
    intro f hdec hm
    have hnext : passDom g start (curFun (domState g f)) =
        domState g (domF g start f) := rfl
    by_cases heq : passDom g start (curFun (domState g f)) = domState g f
    · simp [domLoop, heq]
    · simp only [domLoop, heq, if_false]
      rw [hnext]
      apply ih
      · intro v hv
        exact domF_mono g start (fun u hu => hdec u hu) v
      · have hlt : domMeasure g (domF g start f) < domMeasure g f := by
          apply sum_card_lt (fun v hv => hdec v hv)
          by_contra hno
          push_neg at hno
          exact heq (hnext.trans (domState_congr g hno))
        omega

/-- The sum of a constant map. -/
lemma sum_map_const_nat (l : List Nat) (c : Nat) :
    (l.map (fun _ => c)).sum = c * l.length := by
  induction l with
  | nil => simp
  | cons a t ih => simp [ih]; ring

/-- `dominators` always returns a map. -/
lemma dominators_isSome (start : Nat) (g : DiGraph) :
    (dominators start g).isSome := by
  unfold dominators
  have h : (domLoop g start (g.vertices.length * g.vertices.length + 2)
      (domState g (fun _ => g.allSet))).isSome := by
    apply domLoop_isSome
    · intro v hv
      exact domF_bounded g start (fun u _ => subset_rfl) hv
    · unfold domMeasure
      rw [sum_map_const_nat]
      have h2 : g.allSet.card ≤ g.vertices.length :=
        List.toFinset_card_le g.vertices
      have h3 := Nat.mul_le_mul_right g.vertices.length h2
      omega
  rcases Option.isSome_iff_exists.mp h with ⟨st, hst⟩
  simp [hst]

/-- C5: for every finite graph and start vertex, each pass of the
`dominators` fixpoint loop shrinks the buffers monotonically inside the
finite lattice, the current and next buffers become equal after finitely
many passes, and `dominators` returns a map. -/
theorem C5_dominators_terminate (start : Nat) (g : DiGraph) :
    (dominators start g).isSome :=
  dominators_isSome start g

/-! ## Claim C4: the candidate fold of `immediate_dominator` -/

/-- C4 is false as stated: in the first pass on `gFirstPred` (all vertices
reachable from `0`), vertex `1` lists the not-yet-resolved predecessor `2`
before the resolved predecessor `0`.  The code takes `2` as the initial
candidate without an entry check and then panics inside `intersect` when
walking its nonexistent idom chain, while the fold over exactly the
resolved predecessors that the claim describes would produce candidate
`0`; consequently the whole algorithm aborts on this graph. -/
theorem C4_counterexample :
    (gFirstPred.inEdges 1).map (fun e => e.1) = [2, 0] ∧
      chkNewIdom (rpoList gFirstPred 0) [(0, 0)] 1 [2, 0] = none ∧
      chkNewIdomSpec (rpoList gFirstPred 0) [(0, 0)] 1 [2, 0] =
        some (some 0) ∧
      immediate_dominator 5 0 gFirstPred = none := by
  decide

/-- Once a candidate exists, the rest of the code's fold intersects exactly
the later predecessors `≠ b` that have an entry. -/
lemma chkFold_some (rpo : List Nat) (ret : List (Nat × Nat)) (b : Nat) :
    ∀ (t : List Nat) (d : Nat),
      t.foldlM
        (fun acc p =>
          if p = b then pure acc
          else
            match acc with
            | some d =>
              if (ret.lookup p).isSome then (intersectV rpo ret p d).map some
              else pure (some d)
            | none => pure (some p))
        (some d) =
      ((t.filter (fun p => (ret.lookup p).isSome && !(p = b))).foldlM
        (fun d q => intersectV rpo ret q d) d).map some := by
  intro t
  induction t with
  | nil => intro d; simp
  | cons q t ih =>
    intro d
    by_cases hq : q = b
    · simp [List.foldlM_cons, hq]
      simpa using ih d
    · by_cases he : (ret.lookup q).isSome
      · cases hi : intersectV rpo ret q d with
        | none => simp [List.foldlM_cons, hq, he, hi]
        | some r =>
          simp [List.foldlM_cons, hq, he, hi]
          simpa using ih r
      · simp [List.foldlM_cons, hq, he]
        simpa using ih d

/-- C4 corrected: the code's per-vertex candidate equals the fold in which
the first predecessor `≠ b` becomes the initial candidate with no entry
check, and only the later predecessors `≠ b` are filtered by already
having an entry. -/
theorem C4_first_candidate_unchecked (rpo : List Nat) (ret : List (Nat × Nat))
    (b : Nat) (preds : List Nat) :
    chkNewIdom rpo ret b preds = chkNewIdomFirstFree rpo ret b preds := by
  unfold chkNewIdom chkNewIdomFirstFree
  induction preds with
  | nil => simp
  | cons q t ih =>
    by_cases hq : q = b
    · simpa [List.foldlM_cons, hq] using ih
    · simp only [List.foldlM_cons, List.filter_cons]
      simp [hq, List.filter_filter]
      simpa using chkFold_some rpo ret b t q

/-! ## Claim C2 corrected: what the two tolerant functions actually do -/

/-- A state produced by the loop is a fixpoint of the pass. -/
lemma domLoop_fix (g : DiGraph) (start : Nat) :
    ∀ (fuel : Nat) (cur st : List (Nat × Finset Nat)),
      domLoop g start fuel cur = some st →
      passDom g start (curFun st) = st := by
  intro fuel
  induction fuel with
  | zero => intro cur st h; simp [domLoop] at h
  | succ n ih =>
    intro cur st h
    have hh : domLoop g start (n + 1) cur =
        (if passDom g start (curFun cur) = cur then
          some (passDom g start (curFun cur))
        else domLoop g start n (passDom g start (curFun cur))) := rfl
    rw [hh] at h
    by_cases heq : passDom g start (curFun cur) = cur
    · rw [if_pos heq] at h
      cases h
      rw [heq]
      exact heq
    · rw [if_neg heq] at h
      exact ih _ _ h

/-- Sorting a singleton set. -/
lemma finsetSort_singleton (v : Nat) : finsetSort {v} = [v] := rfl

/-- What `dominators` computes at a non-start vertex without in-edges. -/
lemma dominators_no_preds (g : DiGraph) (start v : Nat)
    (hv : v ∈ g.vertices) (hvs : v ≠ start) (hie : g.inEdges v = []) :
    ∃ m, dominators start g = some m ∧ m.lookup v = some [v] := by
  have hsome := dominators_isSome start g
  unfold dominators at hsome ⊢
  cases hloop : domLoop g start
      (g.vertices.length * g.vertices.length + 2)
      (domState g (fun _ => g.allSet)) with
  | none => rw [hloop] at hsome; simp at hsome
  | some st =>
    refine ⟨_, rfl, ?_⟩
    rw [lookup_map_self, if_pos hv]
    have hfix := domLoop_fix g start _ _ _ hloop
    have hst : curFun st v = {v} := by
      conv_lhs => rw [← hfix]
      unfold passDom
      rw [curFun_domState, if_pos hv]
      unfold domNext
      rw [if_neg hvs, hie]
      rfl
    rw [hst, finsetSort_singleton]

/-- Reading through `pushEntry`. -/
lemma pushEntry_lookup :
    ∀ (acc : List (Nat × List Nat)) (k b k' : Nat),
      (pushEntry acc k b).lookup k' =
        if k' = k then some (((acc.lookup k).getD []) ++ [b])
        else acc.lookup k' := by
  intro acc
  induction acc with
  | nil =>
    intro k b k'
    by_cases hk : k' = k
    · simp [pushEntry, List.lookup, hk]
    · have hb : (k' == k) = false := by simpa using hk
      simp [pushEntry, List.lookup, hb, hk]
  | cons a t ih =>
    intro k b k'
    obtain ⟨a1, a2⟩ := a
    by_cases hak : a1 = k
    · subst hak
      by_cases hk : k' = a1
      · subst hk
        simp [pushEntry, List.lookup]
      · have hb : (k' == a1) = false := by simpa using hk
        simp [pushEntry, List.lookup, hb, hk]
    · by_cases hk' : k' = a1
      · subst hk'
        have hnk : ¬ k' = k := hak
        have hb : (k' == k) = false := by simpa using hnk
        simp [pushEntry, hak, List.lookup, hnk]
      · have hb : (k' == a1) = false := by simpa using hk'
        have hb2 : (k == a1) = false := by simpa using Ne.symm hak
        simp [pushEntry, hak, List.lookup, hb, hb2, ih]

/-- A runner walk that returns never touches the frontier entry of a
vertex without an idom binding. -/
lemma dfWalk_untouched (idom : List (Nat × Nat)) (b stop : Nat) :
    ∀ (fuel runner : Nat) (acc acc' : List (Nat × List Nat)),
      dfWalk idom b stop fuel runner acc = some acc' →
      ∀ k, idom.lookup k = none → acc'.lookup k = acc.lookup k := by
  intro fuel
  induction fuel with
  | zero => intro runner acc acc' h; simp [dfWalk] at h
  | succ n ih =>
    intro runner acc acc' h k hk
    unfold dfWalk at h
    by_cases hr : runner = stop
    · rw [if_pos hr] at h
      cases h
      rfl
    · rw [if_neg hr] at h
      cases hstep : idom.lookup runner with
      | none => rw [hstep] at h; simp at h
      | some r' =>
        rw [hstep] at h
        simp only [Option.bind_eq_bind, Option.some_bind] at h
        have hkr : k ≠ runner := by
          rintro rfl
          rw [hstep] at hk
          cases hk
        rw [ih r' _ _ h k hk, pushEntry_lookup, if_neg hkr]

/-- Processing one join vertex never touches the frontier entry of a
vertex without an idom binding. -/
lemma dfProcessJoin_untouched (idom : List (Nat × Nat)) (_g : DiGraph)
    (b : Nat) :
    ∀ (es : List (Nat × Nat)) (acc acc' : List (Nat × List Nat)),
      es.foldlM
        (fun acc e => do
          let stop ← idom.lookup b
          dfWalk idom b stop (idom.length + 2) e.1 acc) acc = some acc' →
      ∀ k, idom.lookup k = none → acc'.lookup k = acc.lookup k := by
  intro es
  induction es with
  | nil =>
    intro acc acc' h k _
    cases h
    rfl
  | cons e es ih =>
    intro acc acc' h k hk
    simp only [List.foldlM_cons] at h
    cases hfe : (do
        let stop ← idom.lookup b
        dfWalk idom b stop (idom.length + 2) e.1 acc :
          Option (List (Nat × List Nat))) with
    | none => rw [hfe] at h; simp at h
    | some acc1 =>
      rw [hfe] at h
      simp only [Option.bind_eq_bind, Option.some_bind] at h
      have hstep : acc1.lookup k = acc.lookup k := by
        cases hstop : idom.lookup b with
        | none => rw [hstop] at hfe; simp at hfe
        | some stop =>
          rw [hstop] at hfe
          simp only [Option.bind_eq_bind, Option.some_bind] at hfe
          exact dfWalk_untouched idom b stop _ _ _ _ hfe k hk
      rw [ih _ _ h k hk, hstep]

/-- The whole join loop never touches the frontier entry of a vertex
without an idom binding. -/
lemma dfLoop_untouched (idom : List (Nat × Nat)) (g : DiGraph) :
    ∀ (bs : List Nat) (acc acc' : List (Nat × List Nat)),
      bs.foldlM
        (fun acc b =>
          if 2 ≤ g.inDegree b then dfProcessJoin idom g b acc
          else pure acc) acc = some acc' →
      ∀ k, idom.lookup k = none → acc'.lookup k = acc.lookup k := by
  intro bs
  induction bs with
  | nil =>
    intro acc acc' h k _
    cases h
    rfl
  | cons b bs ih =>
    intro acc acc' h k hk
    rw [List.foldlM_cons] at h
    by_cases hdeg : 2 ≤ g.inDegree b
    · rw [if_pos hdeg] at h
      cases hjoin : dfProcessJoin idom g b acc with
      | none => rw [hjoin] at h; simp at h
      | some acc1 =>
        rw [hjoin] at h
        simp only [Option.bind_eq_bind, Option.some_bind] at h
        rw [ih _ _ h k hk]
        exact dfProcessJoin_untouched idom g b _ _ _ hjoin k hk
    · rw [if_neg hdeg] at h
      simp only [Option.bind_eq_bind, Option.pure_def, Option.some_bind] at h
      exact ih _ _ h k hk

/-- Looking up through a value-mapped association list. -/
lemma lookup_map_snd {β γ : Type _} (f : β → γ) :
    ∀ (l : List (Nat × β)) (k : Nat),
      ((l.map (fun p => (p.1, f p.2))).lookup k) = (l.lookup k).map f := by
  intro l
  induction l with
  | nil => intro k; simp [List.lookup]
  | cons a t ih =>
    intro k
    obtain ⟨a1, a2⟩ := a
    by_cases hk : k = a1
    · subst hk
      simp [List.lookup]
    · have hb : (k == a1) = false := by simpa using hk
      simp [List.lookup, hb, ih]

/-- C2 corrected: `dominators` always returns and maps every non-start
vertex without in-edges (in particular an unreachable vertex with no
predecessors) to the singleton `[v]`; `dominance_frontiers` can abort on
unreachable predecessors of join vertices, but whenever it does return a
map fed from `immediate_dominator`, every unreachable vertex is mapped to
the empty sequence. -/
theorem C2_unreachable_degeneration :
    (∀ (g : DiGraph) (start v : Nat), v ∈ g.vertices → v ≠ start →
      g.inEdges v = [] →
      ∃ m, dominators start g = some m ∧ m.lookup v = some [v]) ∧
    (∀ (fuel start : Nat) (g : DiGraph) (m0 : List (Nat × Nat))
        (m : List (Nat × List Nat)) (v : Nat),
      immediate_dominator fuel start g = some m0 →
      dominance_frontiers m0 g = some m →
      v ∈ g.vertices → ¬ g.Reachable start v →
      m.lookup v = some []) := by
  constructor
  · exact fun g start v hv hvs hie => dominators_no_preds g start v hv hvs hie
  · intro fuel start g m0 m v hrun hfr hv hunreach
    have hkey : m0.lookup v = none := idom_unreachable_none hrun hunreach
    unfold dominance_frontiers at hfr
    simp only [] at hfr
    cases hfill : g.vertices.foldlM
        (fun acc b =>
          if 2 ≤ g.inDegree b then dfProcessJoin m0 g b acc
          else pure acc)
        (g.vertices.map (fun v => (v, ([] : List Nat)))) with
    | none => rw [hfill] at hfr; simp at hfr
    | some filled =>
      rw [hfill] at hfr
      simp only [Option.bind_eq_bind, Option.pure_def, Option.some_bind] at hfr
      cases hfr
      rw [lookup_map_snd (fun x => rustDedup (sortNat x)) filled v]
      rw [dfLoop_untouched m0 g _ _ _ hfill v hkey]
      rw [lookup_map_self, if_pos hv]
      rfl

/-- Witness for the corrected C2 on `gUnreach` (isolated unreachable
vertex `2`): `dominators` maps it to `[2]`, and `dominance_frontiers`
returns and maps it to `[]`. -/
theorem C2_unreachable_degeneration_witness :
    (∃ m, dominators 0 gUnreach = some m ∧ m.lookup 2 = some [2]) ∧
      (∃ m, dominance_frontiers [(0, 0), (1, 0)] gUnreach = some m ∧
        m.lookup 2 = some []) := by
  constructor
  · exact C2_unreachable_degeneration.1 gUnreach 0 2 (by decide) (by decide)
      (by decide)
  · refine ⟨[(0, []), (1, []), (2, [])], by decide, ?_⟩
    exact C2_unreachable_degeneration.2 5 0 gUnreach [(0, 0), (1, 0)]
      [(0, []), (1, []), (2, [])] 2 (by decide) (by decide) (by decide)
      gUnreach_not_reachable

end RustGraphAlgos

namespace Store

/-! ## Store claims -/

open RustGraphAlgos

/-! ## Claim C8: `add_edge` -/

/-- C8: `add_edge` succeeds exactly when both endpoints have labels; on
success the handle is the fresh counter value (no existing edge carries
it), the endpoint pair is recorded and the handle is appended to both
adjacency lists; on failure the graph is returned completely unchanged. -/
theorem C8_add_edge {N E : Type} (g : Graph N E) (lb : E) (src dst : Nat)
    (hWF : g.WF) :
    (¬ ((g.vertex_labels.lookup src).isSome ∧
        (g.vertex_labels.lookup dst).isSome) →
      g.add_edge lb src dst = (g, none)) ∧
    (((g.vertex_labels.lookup src).isSome ∧
        (g.vertex_labels.lookup dst).isSome) →
      g.edge_labels.lookup g.next_edge = none ∧
      ∃ ie oe, g.in_edges.lookup dst = some ie ∧
        g.out_edges.lookup src = some oe ∧
        g.add_edge lb src dst =
          ({ g with
              next_edge := g.next_edge + 1
              edge_labels := alInsert g.edge_labels g.next_edge lb
              edges := alInsert g.edges g.next_edge (src, dst)
              in_edges := alInsert g.in_edges dst (ie ++ [g.next_edge])
              out_edges := alInsert g.out_edges src (oe ++ [g.next_edge]) },
           some g.next_edge)) := by
  obtain ⟨-, -, -, -, -, -, -, -, hvl_adj, -, -, -, -, -, -, he_lt⟩ := hWF
  constructor
  · intro h
    unfold Graph.add_edge
    rw [if_neg h]
  · rintro ⟨hsrc, hdst⟩
    have hfresh : g.edge_labels.lookup g.next_edge = none := by
      cases hlk : g.edge_labels.lookup g.next_edge with
      | none => rfl
      | some x =>
        have := he_lt _ (lookup_mem hlk)
        omega
    rcases Option.isSome_iff_exists.mp hsrc with ⟨lsrc, hlsrc⟩
    rcases Option.isSome_iff_exists.mp hdst with ⟨ldst, hldst⟩
    have hoe : (g.out_edges.lookup src).isSome :=
      (hvl_adj _ (lookup_mem hlsrc)).1
    have hie : (g.in_edges.lookup dst).isSome :=
      (hvl_adj _ (lookup_mem hldst)).2
    rcases Option.isSome_iff_exists.mp hoe with ⟨oe, hoe'⟩
    rcases Option.isSome_iff_exists.mp hie with ⟨ie, hie'⟩
    refine ⟨hfresh, ie, oe, hie', hoe', ?_⟩
    unfold Graph.add_edge
    rw [if_pos ⟨hsrc, hdst⟩]
    simp only [hie', hoe']

/-- Witness for C8 on the concrete store `storeTwo`: adding an edge to
the nonexistent vertex `5` changes nothing and signals absence, while
adding `0 → 1` returns the fresh handle `next_edge`. -/
theorem C8_add_edge_witness :
    storeTwo.add_edge 9 0 5 = (storeTwo, none) ∧
      (storeTwo.add_edge 7 0 1).2 = some storeTwo.next_edge := by
  constructor
  · exact (C8_add_edge storeTwo 9 0 5 (by decide)).1 (by decide)
  · have h := (C8_add_edge storeTwo 7 0 1 (by decide)).2 ⟨by decide, by decide⟩
    rcases h with ⟨-, ie, oe, -, -, h3⟩
    rw [h3]

/-! ## Claim C7: `remove_vertex` -/

/-- A successful `findIdx?` splits the list at the first hit. -/
lemma findIdx_decomp {e : Nat} :
    ∀ (l : List Nat) (j i : Nat), List.findIdx? (· == e) l j = some i →
      ∃ l1 l2, l = l1 ++ e :: l2 ∧ j + l1.length = i := by
  intro l
  induction l with
  | nil => intro j i h; simp [List.findIdx?] at h
  | cons a t ih =>
    intro j i h
    rw [List.findIdx?_cons] at h
    by_cases ha : a = e
    · subst ha
      simp at h
      exact ⟨[], t, rfl, by simpa using h⟩
    · have hb : (a == e) = false := by simpa using ha
      rw [hb] at h
      simp only [Bool.false_eq_true, if_false] at h
      rcases ih (j + 1) i h with ⟨l1, l2, rfl, hlen⟩
      exact ⟨a :: l1, l2, rfl, by simp at hlen ⊢; omega⟩

/-- Setting the element straight after a prefix. -/
lemma set_append_len {α : Type _} :
    ∀ (l1 : List α) (x : α) (l2 : List α) (a : α),
      (l1 ++ x :: l2).set l1.length a = l1 ++ a :: l2 := by
  intro l1
  induction l1 with
  | nil => intro x l2 a; rfl
  | cons b t ih => intro x l2 a; simp [List.set, ih]

/-- Unfolding `swapRemove` when the last element is known. -/
lemma swapRemove_eq {α : Type _} {l : List α} {a : α} (i : Nat)
    (h : l.getLast? = some a) : swapRemove l i = (l.set i a).dropLast := by
  unfold swapRemove
  rw [h]

/-- What `swap_remove` does at the first index of a member of a
duplicate-free list: one occurrence disappears, nothing else changes. -/
lemma swapRemove_spec {l : List Nat} {e i : Nat} (hnd : l.Nodup)
    (hidx : List.findIdx? (· == e) l 0 = some i) :
    (swapRemove l i).length + 1 = l.length ∧ (swapRemove l i).Nodup ∧
      ∀ x, x ∈ swapRemove l i ↔ x ∈ l ∧ x ≠ e := by
  obtain ⟨l1, l2, rfl, hlen⟩ := findIdx_decomp _ 0 i hidx
  simp only [Nat.zero_add] at hlen
  subst hlen
  rcases l2.eq_nil_or_concat with rfl | ⟨l2', y, rfl⟩
  · have hget : (l1 ++ [e]).getLast? = some e := List.getLast?_concat _
    rw [swapRemove_eq _ hget, set_append_len, List.dropLast_concat]
    simp only [List.nodup_append, List.nodup_cons, List.not_mem_nil,
      not_false_iff, List.nodup_nil, and_true, true_and,
      List.disjoint_singleton] at hnd
    obtain ⟨hl1nd, hel1⟩ :
        l1.Nodup ∧ e ∉ l1 := by simpa [List.nodup_append] using hnd
    refine ⟨by simp, hl1nd, ?_⟩
    intro x
    constructor
    · intro hx
      refine ⟨List.mem_append_left _ hx, ?_⟩
      rintro rfl
      exact hel1 hx
    · rintro ⟨hx, hxe⟩
      rcases List.mem_append.mp hx with hx' | hx'
      · exact hx'
      · exact absurd (List.mem_singleton.mp hx') hxe
  · simp only [List.concat_eq_append] at hnd hidx ⊢
    have hget : (l1 ++ e :: (l2' ++ [y])).getLast? = some y := by
      rw [show l1 ++ e :: (l2' ++ [y]) = (l1 ++ e :: l2') ++ [y] by simp]
      exact List.getLast?_concat _
    rw [swapRemove_eq _ hget, set_append_len,
      show l1 ++ y :: (l2' ++ [y]) = (l1 ++ y :: l2') ++ [y] by simp,
      List.dropLast_concat]
    obtain ⟨hl1nd, ⟨⟨hel2, hey⟩, hl2nd, hyl2⟩, hel1, hdisj, hyl1⟩ :
        l1.Nodup ∧ ((e ∉ l2' ∧ ¬ e = y) ∧ l2'.Nodup ∧ y ∉ l2') ∧
          e ∉ l1 ∧ l1.Disjoint l2' ∧ y ∉ l1 := by
      simpa [List.nodup_append, List.nodup_cons] using hnd
    refine ⟨by simp; omega, ?_, ?_⟩
    · simp only [List.nodup_append, List.nodup_cons]
      refine ⟨hl1nd, ⟨hyl2, hl2nd⟩, ?_⟩
      intro x hx
      simp only [List.mem_cons]
      rintro (rfl | hx')
      · exact hyl1 hx
      · exact hdisj hx hx'
    · intro x
      simp only [List.mem_append, List.mem_cons, List.not_mem_nil,
        or_false]
      constructor
      · rintro (hx | rfl | hx)
        · exact ⟨Or.inl hx, fun hc => hel1 (hc ▸ hx)⟩
        · exact ⟨Or.inr (Or.inr (Or.inr rfl)), fun hc => hey hc.symm⟩
        · exact ⟨Or.inr (Or.inr (Or.inl hx)), fun hc => hel2 (hc ▸ hx)⟩
      · rintro ⟨hx | hx | hx | rfl, hxe⟩
        · exact Or.inl hx
        · exact absurd hx hxe
        · exact Or.inr (Or.inr hx)
        · exact Or.inr (Or.inl rfl)

/-- What `rm_adj` does on a duplicate-free adjacency list. -/
lemma rmAdj_spec {l : List Nat} {e : Nat} (hnd : l.Nodup) (he : e ∈ l) :
    ∃ l', rmAdj (some l) e = some l' ∧ l'.length + 1 = l.length ∧
      l'.Nodup ∧ ∀ x, x ∈ l' ↔ x ∈ l ∧ x ≠ e := by
  cases hidx : List.findIdx? (· == e) l 0 with
  | none =>
    exfalso
    have h1 := List.findIdx?_eq_none_iff.mp hidx
    have h2 := h1 e he
    simp at h2
  | some i =>
    refine ⟨swapRemove l i, ?_, swapRemove_spec hnd hidx⟩
    have hun : rmAdj (some l) e =
        match List.findIdx? (fun x => x == e) l with
        | none => none
        | some i => some (swapRemove l i) := rfl
    rw [hun, hidx]

/-- Full well-formedness restricts to the edge side. -/
lemma wfe_of_wf {N E : Type} {g : Graph N E} (h : g.WF) : g.WFE := by
  obtain ⟨_, h2, h3, h4, h5, h6, h7, _, _, _, _, h12, h13, h14, _, _⟩ := h
  exact ⟨h2, h3, h4, h5, h6, h7, h12, h13, h14⟩

/-- Membership in `alRemove`. -/
lemma alRemove_mem {β : Type _} {l : List (Nat × β)} {k : Nat}
    {p : Nat × β} : p ∈ alRemove l k ↔ p ∈ l ∧ p.1 ≠ k := by
  unfold alRemove
  rw [List.mem_filter]
  simp

/-- The keys of `alRemove` form a sublist of the original keys. -/
lemma keys_alRemove_sublist {β : Type _} (l : List (Nat × β)) (k : Nat) :
    (keys (alRemove l k)).Sublist (keys l) :=
  (List.filter_sublist l).map Prod.fst

/-- A successful lookup puts the key among the keys. -/
lemma mem_keys_of_lookup {β : Type _} {l : List (Nat × β)} {k : Nat}
    {v : β} (h : l.lookup k = some v) : k ∈ keys l :=
  List.mem_map.mpr ⟨(k, v), lookup_mem h, rfl⟩

/-- Inserting at an existing key keeps the key list. -/
lemma alInsert_keys_of_mem {β : Type _} :
    ∀ {l : List (Nat × β)} {k : Nat} (v : β), k ∈ keys l →
      keys (alInsert l k v) = keys l := by
  intro l
  induction l with
  | nil => intro k v h; simp [keys] at h
  | cons a t ih =>
    intro k v h
    by_cases hak : a.1 = k
    · unfold alInsert
      rw [if_pos hak]
      simp [keys, hak]
    · unfold alInsert
      rw [if_neg hak]
      have hk : k ∈ keys t := by
        simp [keys] at h ⊢
        rcases h with h | h
        · exact absurd h.symm hak
        · exact h
      show a.1 :: keys (alInsert t k v) = a.1 :: keys t
      rw [ih v hk]

/-- Membership in `alInsert` over distinct keys. -/
lemma alInsert_mem_nodup {β : Type _} :
    ∀ {l : List (Nat × β)} {k : Nat} {v : β} {p : Nat × β},
      (keys l).Nodup → p ∈ alInsert l k v →
      p = (k, v) ∨ (p ∈ l ∧ p.1 ≠ k) := by
  intro l
  induction l with
  | nil =>
    intro k v p _ h
    simp [alInsert] at h
    exact Or.inl h
  | cons a t ih =>
    intro k v p hnd h
    simp only [keys, List.map_cons, List.nodup_cons] at hnd
    by_cases hak : a.1 = k
    · unfold alInsert at h
      rw [if_pos hak] at h
      rcases List.mem_cons.mp h with rfl | h'
      · exact Or.inl rfl
      · refine Or.inr ⟨List.mem_cons_of_mem _ h', ?_⟩
        intro hc
        rw [← hc] at hak
        exact hnd.1 (hak ▸ List.mem_map.mpr ⟨p, h', rfl⟩)
    · unfold alInsert at h
      rw [if_neg hak] at h
      rcases List.mem_cons.mp h with rfl | h'
      · exact Or.inr ⟨List.mem_cons_self _ _, hak⟩
      · rcases ih hnd.2 h' with h'' | ⟨h1, h2⟩
        · exact Or.inl h''
        · exact Or.inr ⟨List.mem_cons_of_mem _ h1, h2⟩

/-- What `remove_edge` does on an edge-well-formed store when the handle
has a label: it returns the label, scrubs the label, the endpoint record
and one occurrence from each endpoint adjacency list, and preserves the
edge-side invariants. -/
lemma remove_edge_spec {N E : Type} {g : Graph N E} {e : Nat} {lb : E}
    (hWFE : g.WFE) (hlb : g.edge_labels.lookup e = some lb) :
    ∃ s d ol ol' il il',
      g.edges.lookup e = some (s, d) ∧
      g.out_edges.lookup s = some ol ∧ e ∈ ol ∧
      g.in_edges.lookup d = some il ∧ e ∈ il ∧
      g.remove_edge e =
        ({ g with
            edge_labels := alRemove g.edge_labels e
            edges := alRemove g.edges e
            out_edges := alInsert g.out_edges s ol'
            in_edges := alInsert g.in_edges d il' }, some lb) ∧
      ol'.length + 1 = ol.length ∧ (∀ x, x ∈ ol' ↔ x ∈ ol ∧ x ≠ e) ∧
      il'.length + 1 = il.length ∧ (∀ x, x ∈ il' ↔ x ∈ il ∧ x ≠ e) ∧
      (g.remove_edge e).1.WFE := by
  obtain ⟨hel_nd, hoe_nd, hie_nd, hed_nd, hel_ed, hed_el, hoe_prop,
    hie_prop, hed_lists⟩ := hWFE
  have hedS : (g.edges.lookup e).isSome := hel_ed _ (lookup_mem hlb)
  rcases Option.isSome_iff_exists.mp hedS with ⟨sd, hed⟩
  obtain ⟨s, d⟩ := sd
  have hmem_ed : (e, (s, d)) ∈ g.edges := lookup_mem hed
  have hout : e ∈ (g.out_edges.lookup s).getD [] := (hed_lists _ hmem_ed).1
  have hin : e ∈ (g.in_edges.lookup d).getD [] := (hed_lists _ hmem_ed).2
  rcases hexol : g.out_edges.lookup s with - | ol
  · rw [hexol] at hout; simp at hout
  rcases hexil : g.in_edges.lookup d with - | il
  · rw [hexil] at hin; simp at hin
  rw [hexol] at hout
  rw [hexil] at hin
  simp only [Option.getD_some] at hout hin
  have holnd : ol.Nodup := (hoe_prop _ (lookup_mem hexol)).1
  have hilnd : il.Nodup := (hie_prop _ (lookup_mem hexil)).1
  rcases rmAdj_spec holnd hout with ⟨ol', hol', holen, holnd', holmem⟩
  rcases rmAdj_spec hilnd hin with ⟨il', hil', hilen, hilnd', hilmem⟩
  have hres : g.remove_edge e =
      ({ g with
          edge_labels := alRemove g.edge_labels e
          edges := alRemove g.edges e
          out_edges := alInsert g.out_edges s ol'
          in_edges := alInsert g.in_edges d il' }, some lb) := by
    unfold Graph.remove_edge
    rw [hlb]
    dsimp only
    rw [hed]
    dsimp only
    rw [hexol, hol']
    dsimp only
    rw [hexil, hil']
  refine ⟨s, d, ol, ol', il, il', hed, hexol, hout, hexil, hin, hres,
    holen, holmem, hilen, hilmem, ?_⟩
  rw [hres]
  have hsmem : s ∈ keys g.out_edges := mem_keys_of_lookup hexol
  have hdmem : d ∈ keys g.in_edges := mem_keys_of_lookup hexil
  refine ⟨?_, ?_, ?_, ?_, ?_, ?_, ?_, ?_, ?_⟩
  · exact List.Nodup.sublist (keys_alRemove_sublist _ _) hel_nd
  · rw [alInsert_keys_of_mem ol' hsmem]
    exact hoe_nd
  · rw [alInsert_keys_of_mem il' hdmem]
    exact hie_nd
  · exact List.Nodup.sublist (keys_alRemove_sublist _ _) hed_nd
  · intro p hp
    obtain ⟨hp1, hp2⟩ := alRemove_mem.mp hp
    rw [alRemove_lookup, if_neg hp2]
    exact hel_ed _ hp1
  · intro p hp
    obtain ⟨hp1, hp2⟩ := alRemove_mem.mp hp
    rw [alRemove_lookup, if_neg hp2]
    exact hed_el _ hp1
  · intro p hp
    rcases alInsert_mem_nodup hoe_nd hp with rfl | ⟨hp1, hp2⟩
    · refine ⟨holnd', ?_⟩
      intro x hx
      obtain ⟨hx1, hx2⟩ := (holmem x).mp hx
      rw [alRemove_lookup, if_neg hx2]
      exact (hoe_prop _ (lookup_mem hexol)).2 x hx1
    · refine ⟨(hoe_prop _ hp1).1, ?_⟩
      intro x hx
      have hold := (hoe_prop _ hp1).2 x hx
      have hxe : x ≠ e := by
        rintro rfl
        rw [hed] at hold
        simp at hold
        exact hp2 hold.symm
      rw [alRemove_lookup, if_neg hxe]
      exact hold
  · intro p hp
    rcases alInsert_mem_nodup hie_nd hp with rfl | ⟨hp1, hp2⟩
    · refine ⟨hilnd', ?_⟩
      intro x hx
      obtain ⟨hx1, hx2⟩ := (hilmem x).mp hx
      rw [alRemove_lookup, if_neg hx2]
      exact (hie_prop _ (lookup_mem hexil)).2 x hx1
    · refine ⟨(hie_prop _ hp1).1, ?_⟩
      intro x hx
      have hold := (hie_prop _ hp1).2 x hx
      have hxe : x ≠ e := by
        rintro rfl
        rw [hed] at hold
        simp at hold
        exact hp2 hold.symm
      rw [alRemove_lookup, if_neg hxe]
      exact hold
  · intro p hp
    obtain ⟨hp1, hp2⟩ := alRemove_mem.mp hp
    have hold := hed_lists _ hp1
    constructor
    · rw [alInsert_lookup]
      by_cases hps : p.2.1 = s
      · rw [if_pos hps, Option.getD_some]
        rw [holmem]
        refine ⟨?_, hp2⟩
        have := hold.1
        rw [hps, hexol, Option.getD_some] at this
        exact this
      · rw [if_neg hps]
        exact hold.1
    · rw [alInsert_lookup]
      by_cases hpd : p.2.2 = d
      · rw [if_pos hpd, Option.getD_some]
        rw [hilmem]
        refine ⟨?_, hp2⟩
        have := hold.2
        rw [hpd, hexil, Option.getD_some] at this
        exact this
      · rw [if_neg hpd]
        exact hold.2

/-- What the edge-removal loop of `remove_vertex` does to a list of
distinct labelled edges: it succeeds, scrubs exactly those edges, and
accounts for every degree drop. -/
lemma removeEdgesLoop_spec {N E : Type} :
    ∀ (es : List Nat) (g : Graph N E),
      g.WFE → es.Nodup → (∀ e ∈ es, (g.edge_labels.lookup e).isSome) →
      ∃ g', removeEdgesLoop g es = (g', true) ∧
        g'.WFE ∧
        g'.vertex_labels = g.vertex_labels ∧
        (∀ k, g'.edge_labels.lookup k =
          if k ∈ es then none else g.edge_labels.lookup k) ∧
        (∀ k, g'.edges.lookup k =
          if k ∈ es then none else g.edges.lookup k) ∧
        (∀ u, (g'.out_edges.lookup u).isSome ↔
          (g.out_edges.lookup u).isSome) ∧
        (∀ u, (g'.in_edges.lookup u).isSome ↔
          (g.in_edges.lookup u).isSome) ∧
        (∀ u, g'.out_degree u +
          es.countP (fun e => (g.edges.lookup e).map Prod.fst = some u) =
            g.out_degree u) ∧
        (∀ u, g'.in_degree u +
          es.countP (fun e => (g.edges.lookup e).map Prod.snd = some u) =
            g.in_degree u) := by
  intro es
  induction es with
  | nil =>
    intro g hWFE _ _
    exact ⟨g, rfl, hWFE, rfl, by simp, by simp, fun u => Iff.rfl,
      fun u => Iff.rfl, by simp [List.countP_nil], by simp [List.countP_nil]⟩
  | cons e es ih =>
    intro g hWFE hnd hlab
    rcases Option.isSome_iff_exists.mp
      (hlab e (List.mem_cons_self _ _)) with ⟨lb, hlb⟩
    obtain ⟨s, d, ol, ol', il, il', hed, hexol, _, hexil, _, hres,
      holen, holmem, hilen, hilmem, hWFE'⟩ := remove_edge_spec hWFE hlb
    rw [List.nodup_cons] at hnd
    set G1 : Graph N E :=
      { g with
          edge_labels := alRemove g.edge_labels e
          edges := alRemove g.edges e
          out_edges := alInsert g.out_edges s ol'
          in_edges := alInsert g.in_edges d il' } with hG1
    have hWFE1 : G1.WFE := by rw [hres] at hWFE'; exact hWFE'
    have hlab1 : ∀ k ∈ es, (G1.edge_labels.lookup k).isSome := by
      intro k hk
      show ((alRemove g.edge_labels e).lookup k).isSome
      rw [alRemove_lookup, if_neg (by rintro rfl; exact hnd.1 hk)]
      exact hlab k (List.mem_cons_of_mem _ hk)
    obtain ⟨g', hloop, hW, hvl, hel, hedk, hoeS, hieS, hod, hid⟩ :=
      ih G1 hWFE1 hnd.2 hlab1
    have hstep : removeEdgesLoop g (e :: es) = removeEdgesLoop G1 es := by
      show (let ge := g.remove_edge e;
        if ge.2.isSome then removeEdgesLoop ge.1 es else (ge.1, false)) =
          removeEdgesLoop G1 es
      rw [hres]
      rfl
    have hG1edges : ∀ k, G1.edges.lookup k =
        if k = e then none else g.edges.lookup k := by
      intro k
      show (alRemove g.edges e).lookup k = _
      rw [alRemove_lookup]
    have hG1el : ∀ k, G1.edge_labels.lookup k =
        if k = e then none else g.edge_labels.lookup k := by
      intro k
      show (alRemove g.edge_labels e).lookup k = _
      rw [alRemove_lookup]
    have hcntf : ∀ (u : Nat) (pr : Nat × Nat → Nat),
        es.countP (fun k => (G1.edges.lookup k).map pr = some u) =
          es.countP (fun k => (g.edges.lookup k).map pr = some u) := by
      intro u pr
      apply List.countP_congr
      intro k hk
      rw [hG1edges k, if_neg (by rintro rfl; exact hnd.1 hk)]
    refine ⟨g', by rw [hstep]; exact hloop, hW, by rw [hvl], ?_, ?_, ?_,
      ?_, ?_, ?_⟩
    · intro k
      rw [hel k, hG1el k]
      by_cases hke : k ∈ es
      · simp [hke]
      · by_cases hkk : k = e
        · simp [hke, hkk]
        · simp [hke, hkk]
    · intro k
      rw [hedk k, hG1edges k]
      by_cases hke : k ∈ es
      · simp [hke]
      · by_cases hkk : k = e
        · simp [hke, hkk]
        · simp [hke, hkk]
    · intro u
      rw [hoeS u]
      have hG1oe : (G1.out_edges.lookup u).isSome =
          (g.out_edges.lookup u).isSome := by
        show ((alInsert g.out_edges s ol').lookup u).isSome = _
        rw [alInsert_lookup]
        by_cases hus : u = s
        · simp [hus, hexol]
        · simp [hus]
      rw [hG1oe]
    · intro u
      rw [hieS u]
      have hG1ie : (G1.in_edges.lookup u).isSome =
          (g.in_edges.lookup u).isSome := by
        show ((alInsert g.in_edges d il').lookup u).isSome = _
        rw [alInsert_lookup]
        by_cases hud : u = d
        · simp [hud, hexil]
        · simp [hud]
      rw [hG1ie]
    · intro u
      have h1 := hod u
      rw [hcntf u Prod.fst] at h1
      have hG1od : G1.out_degree u =
          if u = s then ol'.length else g.out_degree u := by
        show (((alInsert g.out_edges s ol').lookup u).getD []).length = _
        rw [alInsert_lookup]
        by_cases hus : u = s <;> simp [hus, Graph.out_degree]
      rw [List.countP_cons]
      have hpred : ((g.edges.lookup e).map Prod.fst = some u) ↔ u = s := by
        rw [hed]
        simp [eq_comm]
      by_cases hus : u = s
      · have hgod : g.out_degree u = ol.length := by
          unfold Graph.out_degree
          rw [hus, hexol]
          rfl
        rw [hG1od, if_pos hus] at h1
        have hcond : (decide ((g.edges.lookup e).map Prod.fst = some u))
            = true := decide_eq_true (hpred.mpr hus)
        simp only [hcond, if_true]
        omega
      · rw [hG1od, if_neg hus] at h1
        have : ¬ ((g.edges.lookup e).map Prod.fst = some u) := by
          rw [hpred]; exact hus
        simp only [hpred]
        simp [hus]
        omega
    · intro u
      have h1 := hid u
      rw [hcntf u Prod.snd] at h1
      have hG1id : G1.in_degree u =
          if u = d then il'.length else g.in_degree u := by
        show (((alInsert g.in_edges d il').lookup u).getD []).length = _
        rw [alInsert_lookup]
        by_cases hud : u = d <;> simp [hud, Graph.in_degree]
      rw [List.countP_cons]
      have hpred : ((g.edges.lookup e).map Prod.snd = some u) ↔ u = d := by
        rw [hed]
        simp [eq_comm]
      by_cases hud : u = d
      · have hgid : g.in_degree u = il.length := by
          unfold Graph.in_degree
          rw [hud, hexil]
          rfl
        rw [hG1id, if_pos hud] at h1
        have hcond : (decide ((g.edges.lookup e).map Prod.snd = some u))
            = true := decide_eq_true (hpred.mpr hud)
        simp only [hcond, if_true]
        omega
      · rw [hG1id, if_neg hud] at h1
        simp only [hpred]
        simp [hud]
        omega

/-- C7 — amended.  On a well-formed store, for a vertex `v` carrying no
self-loop edge: if `v` has no label, `remove_vertex` mutates nothing and
signals absence; if `v` has a label, `remove_vertex` returns that label
and a store in which `v`'s label and adjacency lists are gone, other
vertex labels are untouched, exactly the edges incident on `v` (as source
or as target) are removed from the edge and edge-label maps, other
vertices keep their adjacency lists, and each remaining vertex's
out-degree (resp. in-degree) drops by exactly one per removed incident
edge it was the source (resp. target) of.  The self-loop hypothesis is
necessary: `Store.C7_counterexample` shows the claim fails without it. -/
theorem C7_remove_vertex {N E : Type} (g : Graph N E) (v : Nat)
    (hWF : g.WF) (hnosl : ∀ p ∈ g.edges, p.2 ≠ (v, v)) :
    (g.vertex_labels.lookup v = none → g.remove_vertex v = (g, none)) ∧
    (∀ lb, g.vertex_labels.lookup v = some lb →
      ∃ G, g.remove_vertex v = (G, some lb) ∧
        G.vertex_labels.lookup v = none ∧
        (∀ u, u ≠ v → G.vertex_labels.lookup u = g.vertex_labels.lookup u) ∧
        (∀ k, G.edges.lookup k =
          if (g.edges.lookup k).map Prod.fst = some v ∨
             (g.edges.lookup k).map Prod.snd = some v
          then none else g.edges.lookup k) ∧
        (∀ k, G.edge_labels.lookup k =
          if (g.edges.lookup k).map Prod.fst = some v ∨
             (g.edges.lookup k).map Prod.snd = some v
          then none else g.edge_labels.lookup k) ∧
        G.out_edges.lookup v = none ∧
        G.in_edges.lookup v = none ∧
        (∀ u, u ≠ v →
          ((G.out_edges.lookup u).isSome ↔ (g.out_edges.lookup u).isSome)) ∧
        (∀ u, u ≠ v →
          ((G.in_edges.lookup u).isSome ↔ (g.in_edges.lookup u).isSome)) ∧
        (∀ u, u ≠ v →
          G.out_degree u +
            ((g.in_edges.lookup v).getD [] ++
              (g.out_edges.lookup v).getD []).countP
              (fun k => (g.edges.lookup k).map Prod.fst = some u) =
            g.out_degree u) ∧
        (∀ u, u ≠ v →
          G.in_degree u +
            ((g.in_edges.lookup v).getD [] ++
              (g.out_edges.lookup v).getD []).countP
              (fun k => (g.edges.lookup k).map Prod.snd = some u) =
            g.in_degree u)) := by
  have hWFc := hWF
  obtain ⟨hvnd, _, _, _, _, _, hed2el, _, hv2adj, _, _, hoeP, hieP,
    hedadj, _, _⟩ := hWFc
  constructor
  · intro hn
    unfold Graph.remove_vertex
    rw [hn]
  · intro lb hlb
    obtain ⟨ol, hol⟩ := Option.isSome_iff_exists.mp
      (hv2adj (v, lb) (lookup_mem hlb)).1
    obtain ⟨il, hil⟩ := Option.isSome_iff_exists.mp
      (hv2adj (v, lb) (lookup_mem hlb)).2
    obtain ⟨holnd, holsrc⟩ := hoeP (v, ol) (lookup_mem hol)
    obtain ⟨hilnd, hiltgt⟩ := hieP (v, il) (lookup_mem hil)
    have hdisj : ∀ k, k ∈ il → k ∈ ol → False := by
      intro k hkil hkol
      obtain ⟨pr, hpr, hprs⟩ := Option.map_eq_some'.mp (holsrc k hkol)
      have hprt : pr.2 = v := by
        obtain ⟨pr2, hpr2, hprt2⟩ := Option.map_eq_some'.mp (hiltgt k hkil)
        rw [hpr] at hpr2
        cases hpr2
        exact hprt2
      exact hnosl (k, pr) (lookup_mem hpr)
        (by cases pr; simp only [Prod.mk.injEq]; exact ⟨hprs, hprt⟩)
    have hmem : ∀ k, (k ∈ il ∨ k ∈ ol) ↔
        ((g.edges.lookup k).map Prod.fst = some v ∨
         (g.edges.lookup k).map Prod.snd = some v) := by
      intro k
      constructor
      · rintro (hk | hk)
        · exact Or.inr (hiltgt k hk)
        · exact Or.inl (holsrc k hk)
      · rintro (hk | hk)
        · obtain ⟨pr, hpr, hprs⟩ := Option.map_eq_some'.mp hk
          have := (hedadj (k, pr) (lookup_mem hpr)).1
          rw [hprs] at this
          rw [hol] at this
          exact Or.inr this
        · obtain ⟨pr, hpr, hprt⟩ := Option.map_eq_some'.mp hk
          have := (hedadj (k, pr) (lookup_mem hpr)).2
          rw [hprt] at this
          rw [hil] at this
          exact Or.inl this
    have hlabil : ∀ k ∈ il, (g.edge_labels.lookup k).isSome := by
      intro k hk
      obtain ⟨pr, hpr, _⟩ := Option.map_eq_some'.mp (hiltgt k hk)
      exact hed2el (k, pr) (lookup_mem hpr)
    have hlabol : ∀ k ∈ ol, (g.edge_labels.lookup k).isSome := by
      intro k hk
      obtain ⟨pr, hpr, _⟩ := Option.map_eq_some'.mp (holsrc k hk)
      exact hed2el (k, pr) (lookup_mem hpr)
    have hWFE0 :
        (Graph.mk (alRemove g.vertex_labels v) g.edge_labels g.out_edges
          g.in_edges g.edges g.next_edge g.next_vertex : Graph N E).WFE := by
      have h := wfe_of_wf hWF
      exact h
    obtain ⟨g1, hloop1, hWFE1, hvl1, hel1, hed1, hoeS1, hieS1, hod1, hid1⟩ :=
      removeEdgesLoop_spec il _ hWFE0 hilnd hlabil
    have hlabol1 : ∀ k ∈ ol, (g1.edge_labels.lookup k).isSome := by
      intro k hk
      rw [hel1 k, if_neg (fun hkil => hdisj k hkil hk)]
      exact hlabol k hk
    obtain ⟨g2, hloop2, hWFE2, hvl2, hel2, hed2, hoeS2, hieS2, hod2, hid2⟩ :=
      removeEdgesLoop_spec ol g1 hWFE1 holnd hlabol1
    have hoev2 : ∃ l2, g2.out_edges.lookup v = some l2 := by
      apply Option.isSome_iff_exists.mp
      rw [hoeS2 v, hoeS1 v]
      show (g.out_edges.lookup v).isSome
      rw [hol]
      rfl
    have hiev2 : ∃ l2, g2.in_edges.lookup v = some l2 := by
      apply Option.isSome_iff_exists.mp
      rw [hieS2 v, hieS1 v]
      show (g.in_edges.lookup v).isSome
      rw [hil]
      rfl
    obtain ⟨ol2, hol2⟩ := hoev2
    obtain ⟨il2, hil2⟩ := hiev2
    have hrv : g.remove_vertex v =
        ({ g2 with out_edges := alRemove g2.out_edges v,
                   in_edges := alRemove g2.in_edges v }, some lb) := by
      unfold Graph.remove_vertex
      rw [hlb]
      dsimp only
      rw [show (g.in_edges.lookup v).getD [] = il by rw [hil]; rfl,
        show (g.out_edges.lookup v).getD [] = ol by rw [hol]; rfl,
        hloop1]
      dsimp only
      rw [hloop2]
      dsimp only
      rw [hol2]
      dsimp only
      rw [hil2]
      rfl
    refine ⟨_, hrv, ?_, ?_, ?_, ?_, ?_, ?_, ?_, ?_, ?_, ?_⟩
    · show g2.vertex_labels.lookup v = none
      rw [hvl2, hvl1]
      show (alRemove g.vertex_labels v).lookup v = none
      rw [alRemove_lookup, if_pos rfl]
    · intro u hu
      show g2.vertex_labels.lookup u = _
      rw [hvl2, hvl1]
      show (alRemove g.vertex_labels v).lookup u = _
      rw [alRemove_lookup, if_neg hu]
    · intro k
      show g2.edges.lookup k = _
      by_cases hinc : (g.edges.lookup k).map Prod.fst = some v ∨
          (g.edges.lookup k).map Prod.snd = some v
      · rw [if_pos hinc]
        rcases (hmem k).mpr hinc with hk | hk
        · by_cases hkol : k ∈ ol
          · rw [hed2 k, if_pos hkol]
          · rw [hed2 k, if_neg hkol, hed1 k, if_pos hk]
        · rw [hed2 k, if_pos hk]
      · rw [if_neg hinc]
        have hnk : ¬ (k ∈ il ∨ k ∈ ol) := fun h => hinc ((hmem k).mp h)
        rw [hed2 k, if_neg (fun h => hnk (Or.inr h)),
          hed1 k, if_neg (fun h => hnk (Or.inl h))]
    · intro k
      show g2.edge_labels.lookup k = _
      by_cases hinc : (g.edges.lookup k).map Prod.fst = some v ∨
          (g.edges.lookup k).map Prod.snd = some v
      · rw [if_pos hinc]
        rcases (hmem k).mpr hinc with hk | hk
        · by_cases hkol : k ∈ ol
          · rw [hel2 k, if_pos hkol]
          · rw [hel2 k, if_neg hkol, hel1 k, if_pos hk]
        · rw [hel2 k, if_pos hk]
      · rw [if_neg hinc]
        have hnk : ¬ (k ∈ il ∨ k ∈ ol) := fun h => hinc ((hmem k).mp h)
        rw [hel2 k, if_neg (fun h => hnk (Or.inr h)),
          hel1 k, if_neg (fun h => hnk (Or.inl h))]
    · show (alRemove g2.out_edges v).lookup v = none
      rw [alRemove_lookup, if_pos rfl]
    · show (alRemove g2.in_edges v).lookup v = none
      rw [alRemove_lookup, if_pos rfl]
    · intro u hu
      show ((alRemove g2.out_edges v).lookup u).isSome ↔ _
      rw [alRemove_lookup, if_neg hu, hoeS2 u, hoeS1 u]
    · intro u hu
      show ((alRemove g2.in_edges v).lookup u).isSome ↔ _
      rw [alRemove_lookup, if_neg hu, hieS2 u, hieS1 u]
    · intro u hu
      have hG : (((alRemove g2.out_edges v).lookup u).getD []).length =
          g2.out_degree u := by
        rw [alRemove_lookup, if_neg hu]
        rfl
      have hilG : (g.in_edges.lookup v).getD [] = il := by rw [hil]; rfl
      have holG : (g.out_edges.lookup v).getD [] = ol := by rw [hol]; rfl
      show (((alRemove g2.out_edges v).lookup u).getD []).length + _ = _
      rw [hG, hilG, holG, List.countP_append]
      have h2 := hod2 u
      have hcnt : ol.countP
          (fun k => (g1.edges.lookup k).map Prod.fst = some u) =
          ol.countP (fun k => (g.edges.lookup k).map Prod.fst = some u) := by
        apply List.countP_congr
        intro k hk
        rw [hed1 k, if_neg (fun hkil => hdisj k hkil hk)]
      rw [hcnt] at h2
      have h1 : g1.out_degree u +
          il.countP (fun k => (g.edges.lookup k).map Prod.fst = some u) =
          g.out_degree u := hod1 u
      omega
    · intro u hu
      have hG : (((alRemove g2.in_edges v).lookup u).getD []).length =
          g2.in_degree u := by
        rw [alRemove_lookup, if_neg hu]
        rfl
      have hilG : (g.in_edges.lookup v).getD [] = il := by rw [hil]; rfl
      have holG : (g.out_edges.lookup v).getD [] = ol := by rw [hol]; rfl
      show (((alRemove g2.in_edges v).lookup u).getD []).length + _ = _
      rw [hG, hilG, holG, List.countP_append]
      have h2 := hid2 u
      have hcnt : ol.countP
          (fun k => (g1.edges.lookup k).map Prod.snd = some u) =
          ol.countP (fun k => (g.edges.lookup k).map Prod.snd = some u) := by
        apply List.countP_congr
        intro k hk
        rw [hed1 k, if_neg (fun hkil => hdisj k hkil hk)]
      rw [hcnt] at h2
      have h1 : g1.in_degree u +
          il.countP (fun k => (g.edges.lookup k).map Prod.snd = some u) =
          g.in_degree u := hid1 u
      omega

/-- Witness: `C7_remove_vertex` applied to the concrete two-vertex store
`storeTwo` (vertices `0, 1`, one edge `0 → 1`, no self-loops) at `v = 0`. -/
theorem C7_remove_vertex_witness :
    storeTwo.WF ∧ (∀ p ∈ storeTwo.edges, p.2 ≠ (0, 0)) ∧
    ((storeTwo.vertex_labels.lookup 0 = none →
        storeTwo.remove_vertex 0 = (storeTwo, none)) ∧
      (∀ lb, storeTwo.vertex_labels.lookup 0 = some lb →
        ∃ G, storeTwo.remove_vertex 0 = (G, some lb) ∧
          G.vertex_labels.lookup 0 = none ∧
          (∀ u, u ≠ 0 →
            G.vertex_labels.lookup u = storeTwo.vertex_labels.lookup u) ∧
          (∀ k, G.edges.lookup k =
            if (storeTwo.edges.lookup k).map Prod.fst = some 0 ∨
               (storeTwo.edges.lookup k).map Prod.snd = some 0
            then none else storeTwo.edges.lookup k) ∧
          (∀ k, G.edge_labels.lookup k =
            if (storeTwo.edges.lookup k).map Prod.fst = some 0 ∨
               (storeTwo.edges.lookup k).map Prod.snd = some 0
            then none else storeTwo.edge_labels.lookup k) ∧
          G.out_edges.lookup 0 = none ∧
          G.in_edges.lookup 0 = none ∧
          (∀ u, u ≠ 0 → ((G.out_edges.lookup u).isSome ↔
            (storeTwo.out_edges.lookup u).isSome)) ∧
          (∀ u, u ≠ 0 → ((G.in_edges.lookup u).isSome ↔
            (storeTwo.in_edges.lookup u).isSome)) ∧
          (∀ u, u ≠ 0 →
            G.out_degree u +
              ((storeTwo.in_edges.lookup 0).getD [] ++
                (storeTwo.out_edges.lookup 0).getD []).countP
                (fun k => (storeTwo.edges.lookup k).map Prod.fst = some u) =
              storeTwo.out_degree u) ∧
          (∀ u, u ≠ 0 →
            G.in_degree u +
              ((storeTwo.in_edges.lookup 0).getD [] ++
                (storeTwo.out_edges.lookup 0).getD []).countP
                (fun k => (storeTwo.edges.lookup k).map Prod.snd = some u) =
              storeTwo.in_degree u))) :=
  ⟨by decide, by decide, C7_remove_vertex storeTwo 0 (by decide) (by decide)⟩

/-! ## Claim C7: `remove_vertex` (refutation) -/

/-- C7 is false as stated: in `storeSelfLoop` the vertex `0` has label `7`
and a self-loop.  `remove_vertex 0` removes the loop edge while scrubbing
the in-edge list, then fails to remove the same handle again from the
out-edge snapshot, so it signals absence instead of returning the label —
and it has already mutated the graph (the label is gone). -/
theorem C7_counterexample :
    storeSelfLoop.vertex_labels.lookup 0 = some 7 ∧
      (storeSelfLoop.remove_vertex 0).2 = none ∧
      (storeSelfLoop.remove_vertex 0).1.vertex_labels.lookup 0 = none := by
  decide

/-! ## Claim C9: `adjacent_vertices` (refutation) -/

/-- C9 is false as stated: in the well-formed store `storeAdj`, vertex `0`
has successor `1` and predecessor `2`; the `adjacent_vertices` iterator
pops from the back of its ascending-sorted buffer and therefore yields
`2, 1` — descending, not ascending, order. -/
theorem C9_counterexample :
    storeAdj.WF ∧ storeAdj.vertex_labels.lookup 0 = some 10 ∧
      storeAdj.adjacent_vertices_yield 0 = some [2, 1] ∧
      ¬ List.Sorted (· ≤ ·) [2, 1] := by
  decide

/-- The sort step is sorted. -/
lemma sortNat_sorted (l : List Nat) : (sortNat l).Sorted (· ≤ ·) :=
  List.sorted_insertionSort _ l

/-- The sort step keeps the members. -/
lemma sortNat_mem (l : List Nat) (x : Nat) : x ∈ sortNat l ↔ x ∈ l :=
  (List.perm_insertionSort _ l).mem_iff

/-- Consecutive deduplication yields a sublist. -/
lemma rustDedup_sublist : ∀ l : List Nat, (rustDedup l).Sublist l := by
  intro l
  induction l with
  | nil => simp [rustDedup]
  | cons a t ih =>
    cases t with
    | nil => simp [rustDedup]
    | cons b t2 =>
      unfold rustDedup
      by_cases hab : a = b
      · rw [if_pos hab]
        exact ih.cons a
      · rw [if_neg hab]
        exact ih.cons₂ a

/-- Consecutive deduplication keeps the members. -/
lemma rustDedup_mem : ∀ (l : List Nat) (x : Nat), x ∈ rustDedup l ↔ x ∈ l := by
  intro l
  induction l with
  | nil => intro x; simp [rustDedup]
  | cons a t ih =>
    intro x
    cases t with
    | nil => simp [rustDedup]
    | cons b t2 =>
      unfold rustDedup
      by_cases hab : a = b
      · rw [if_pos hab, ih]
        subst hab
        simp
      · rw [if_neg hab]
        simp [ih]

/-- Consecutive deduplication of a sorted list has no duplicates. -/
lemma rustDedup_nodup :
    ∀ l : List Nat, l.Sorted (· ≤ ·) → (rustDedup l).Nodup := by
  intro l
  induction l with
  | nil => intro _; simp [rustDedup]
  | cons a t ih =>
    intro hs
    cases t with
    | nil => simp [rustDedup]
    | cons b t2 =>
      have hs' : (b :: t2).Sorted (· ≤ ·) := hs.of_cons
      unfold rustDedup
      by_cases hab : a = b
      · rw [if_pos hab]
        exact ih hs'
      · rw [if_neg hab]
        refine List.nodup_cons.mpr ⟨?_, ih hs'⟩
        intro hmem
        have hmem' : a ∈ b :: t2 := (rustDedup_mem _ a).mp hmem
        have hab' : a ≤ b := (List.sorted_cons.mp hs).1 b (List.mem_cons_self _ _)
        have hbx : b ≤ a := by
          rcases List.mem_cons.mp hmem' with rfl | hmem''
          · exact le_refl a
          · exact (List.sorted_cons.mp hs').1 a hmem''
        exact hab (le_antisymm hab' hbx)

/-- A `mapM` over a list of successful lookups succeeds and collects
exactly the looked-up values. -/
lemma mapM_some {α β : Type _} (f : α → Option β) :
    ∀ (l : List α), (∀ a ∈ l, (f a).isSome) →
      ∃ r, l.mapM f = some r ∧ ∀ x, x ∈ r ↔ ∃ a ∈ l, f a = some x := by
  intro l
  induction l with
  | nil => intro _; exact ⟨[], rfl, by simp⟩
  | cons a t ih =>
    intro h
    rcases Option.isSome_iff_exists.mp (h a (List.mem_cons_self _ _)) with
      ⟨b, hb⟩
    rcases ih (fun a' ha' => h a' (List.mem_cons_of_mem _ ha')) with
      ⟨r, hr, hmem⟩
    refine ⟨b :: r, ?_, ?_⟩
    · rw [List.mapM_cons, hb, hr]
      rfl
    · intro x
      constructor
      · intro hx
        rcases List.mem_cons.mp hx with rfl | hx'
        · exact ⟨a, List.mem_cons_self _ _, hb⟩
        · rcases (hmem x).mp hx' with ⟨a', ha', hfa⟩
          exact ⟨a', List.mem_cons_of_mem _ ha', hfa⟩
      · rintro ⟨a', ha', hfa⟩
        rcases List.mem_cons.mp ha' with rfl | ha''
        · rw [hb] at hfa
          cases hfa
          exact List.mem_cons_self _ _
        · exact List.mem_cons_of_mem _ ((hmem x).mpr ⟨a', ha'', hfa⟩)

/-- C9 corrected: on a well-formed store, the `adjacent_vertices` iterator
of a labelled vertex yields the deduplicated union of its successors and
predecessors, each exactly once — but in descending, not ascending, order
(the ascending-sorted buffer is consumed from the back). -/
theorem C9_adjacent_descending {N E : Type} (g : Graph N E) (v : Nat)
    (hWF : g.WF) (hv : (g.vertex_labels.lookup v).isSome) :
    ∃ l, g.adjacent_vertices_yield v = some l ∧ l.Nodup ∧
      List.Sorted (fun a b => b ≤ a) l ∧
      ∀ x, x ∈ l ↔ ((∃ e, g.edges.lookup e = some (v, x)) ∨
        ∃ e, g.edges.lookup e = some (x, v)) := by
  obtain ⟨-, -, -, -, -, -, -, -, hvl_adj, -, -, hoe_prop, hie_prop,
    hed_lists, -, -⟩ := hWF
  rcases Option.isSome_iff_exists.mp hv with ⟨lbv, hlbv⟩
  have hpair := hvl_adj _ (lookup_mem hlbv)
  rcases Option.isSome_iff_exists.mp hpair.1 with ⟨ol, hol⟩
  rcases Option.isSome_iff_exists.mp hpair.2 with ⟨il, hil⟩
  have holp := hoe_prop _ (lookup_mem hol)
  have hilp := hie_prop _ (lookup_mem hil)
  rcases mapM_some (fun e => (g.edges.lookup e).map (fun sd => sd.2)) ol
      (fun e he => by
        have := holp.2 e he
        cases hlk : g.edges.lookup e with
        | none => rw [hlk] at this; cases this
        | some sd => simp [hlk]) with ⟨tgts, htgts, htmem⟩
  rcases mapM_some (fun e => (g.edges.lookup e).map (fun sd => sd.1)) il
      (fun e he => by
        have := hilp.2 e he
        cases hlk : g.edges.lookup e with
        | none => rw [hlk] at this; cases this
        | some sd => simp [hlk]) with ⟨srcs, hsrcs, hsmem⟩
  have hbuf : g.adjacent_vertices v =
      some (rustDedup (sortNat (tgts ++ srcs))) := by
    unfold Graph.adjacent_vertices
    rw [hol, hil]
    simp only [Option.bind_eq_bind, Option.some_bind]
    rw [htgts]
    simp only [Option.bind_eq_bind, Option.some_bind]
    rw [hsrcs]
    rfl
  have hsorted : (rustDedup (sortNat (tgts ++ srcs))).Sorted (· ≤ ·) :=
    (sortNat_sorted (tgts ++ srcs)).sublist
      (rustDedup_sublist (sortNat (tgts ++ srcs)))
  refine ⟨(rustDedup (sortNat (tgts ++ srcs))).reverse, ?_, ?_, ?_, ?_⟩
  · unfold Graph.adjacent_vertices_yield
    rw [hbuf]
    rfl
  · exact List.nodup_reverse.mpr
      (rustDedup_nodup _ (sortNat_sorted (tgts ++ srcs)))
  · exact List.pairwise_reverse.mpr hsorted
  · intro x
    rw [List.mem_reverse, rustDedup_mem, sortNat_mem, List.mem_append]
    constructor
    · rintro (hx | hx)
      · rcases (htmem x).mp hx with ⟨e, he, hfe⟩
        have := holp.2 e he
        cases hlk : g.edges.lookup e with
        | none => rw [hlk] at this; cases this
        | some sd =>
          rw [hlk] at this hfe
          simp at this hfe
          refine Or.inl ⟨e, ?_⟩
          rw [hlk, ← this, ← hfe]
      · rcases (hsmem x).mp hx with ⟨e, he, hfe⟩
        have := hilp.2 e he
        cases hlk : g.edges.lookup e with
        | none => rw [hlk] at this; cases this
        | some sd =>
          rw [hlk] at this hfe
          simp at this hfe
          refine Or.inr ⟨e, ?_⟩
          rw [hlk, ← this, ← hfe]
    · rintro (⟨e, he⟩ | ⟨e, he⟩)
      · refine Or.inl ((htmem x).mpr ⟨e, ?_, by rw [he]; rfl⟩)
        have := (hed_lists _ (lookup_mem he)).1
        rw [hol] at this
        exact this
      · refine Or.inr ((hsmem x).mpr ⟨e, ?_, by rw [he]; rfl⟩)
        have := (hed_lists _ (lookup_mem he)).2
        rw [hil] at this
        exact this

/-- Witness for the corrected C9 on `storeAdj` at vertex `0`. -/
theorem C9_adjacent_descending_witness :
    ∃ l, storeAdj.adjacent_vertices_yield 0 = some l ∧ l.Nodup ∧
      List.Sorted (fun a b => b ≤ a) l ∧
      ∀ x, x ∈ l ↔ ((∃ e, storeAdj.edges.lookup e = some (0, x)) ∨
        ∃ e, storeAdj.edges.lookup e = some (x, 0)) :=
  C9_adjacent_descending storeAdj 0 (by decide) (by decide)

end Store

namespace RustGraphAlgos

/-! ## Claim C3: the returned idom map against the dominator sets

The plan: extract from a successful `immediate_dominator` run the
fixpoint equations of the final map (the last pass re-verified every
vertex without change), show that every value stored by the candidate
fold lies on the idom chain of each predecessor, conclude by induction
on walk length that every chain ancestor of a vertex lies on every walk
from `start` to it, and separately show that every such path dominator
survives the `dominators` fixpoint iteration. -/

/-- The start vertex is on every walk that leaves it (it is the head). -/
lemma isPath_start_mem {g : DiGraph} {s v : Nat} {p : List Nat}
    (h : IsPath g s v p) : s ∈ p := by
  induction h with
  | single => exact List.mem_singleton_self _
  | snoc _ _ ih => exact List.mem_append_left _ ih

/-- The endpoint of a walk is on it (it is the last element). -/
lemma isPath_end_mem {g : DiGraph} {s v : Nat} {p : List Nat}
    (h : IsPath g s v p) : v ∈ p := by
  cases h with
  | single => exact List.mem_singleton_self _
  | snoc _ _ => exact List.mem_append_right _ (List.mem_singleton_self _)

/-- A walk witnesses reachability of its endpoint. -/
lemma isPath_reachable {g : DiGraph} {s v : Nat} {p : List Nat}
    (h : IsPath g s v p) : g.Reachable s v := by
  induction h with
  | single => exact Relation.ReflTransGen.refl
  | snoc _ he ih => exact Relation.ReflTransGen.tail ih he

/-- Reachability yields a concrete walk. -/
lemma reachable_isPath {g : DiGraph} {s v : Nat}
    (h : g.Reachable s v) : ∃ p, IsPath g s v p := by
  induction h with
  | refl => exact ⟨[s], IsPath.single⟩
  | tail _ he ih =>
    obtain ⟨p, hp⟩ := ih
    exact ⟨p ++ [_], IsPath.snoc hp he⟩

/-- On a well-formed graph every walk stays inside the vertex list. -/
lemma isPath_mem_vertices {g : DiGraph} {s v : Nat} {p : List Nat}
    (hWF : g.WF) (hs : s ∈ g.vertices) (h : IsPath g s v p) :
    ∀ x ∈ p, x ∈ g.vertices := by
  induction h with
  | single => intro x hx; rw [List.mem_singleton] at hx; subst hx; exact hs
  | snoc _ he ih =>
    intro x hx
    rcases List.mem_append.mp hx with hx | hx
    · exact ih x hx
    · rw [List.mem_singleton] at hx
      subst hx
      exact (hWF.2 _ he).2

/-- Every vertex visited by a walk is the endpoint of a prefix walk that
visits it only at the end, built from the walk's first visit. -/
lemma path_first_occ {g : DiGraph} {s v : Nat} {p : List Nat}
    (h : IsPath g s v p) :
    ∀ w ∈ p, ∃ q, IsPath g s w q ∧ w ∉ q.dropLast ∧ ∀ x ∈ q, x ∈ p := by
  induction h with
  | single =>
    intro w hw
    rw [List.mem_singleton] at hw
    subst hw
    exact ⟨[w], IsPath.single, by simp, fun x hx => hx⟩
  | snoc hq he ih =>
    rename_i u w1 p1
    intro w hw
    rcases List.mem_append.mp hw with hw | hw
    · obtain ⟨q0, hq0, hnw, hsub⟩ := ih w hw
      exact ⟨q0, hq0, hnw, fun x hx => List.mem_append_left _ (hsub x hx)⟩
    · rw [List.mem_singleton] at hw
      subst hw
      by_cases hwp : w ∈ p1
      · obtain ⟨q0, hq0, hnw, hsub⟩ := ih w hwp
        exact ⟨q0, hq0, hnw, fun x hx => List.mem_append_left _ (hsub x hx)⟩
      · refine ⟨_, IsPath.snoc hq he, ?_, fun x hx => hx⟩
        rw [List.dropLast_concat]
        exact hwp

/-- Membership survives an intersection fold when it holds everywhere. -/
lemma mem_foldl_inter {w : Nat} :
    ∀ (ds : List (Finset Nat)) (d : Finset Nat),
      w ∈ d → (∀ s ∈ ds, w ∈ s) → w ∈ ds.foldl (· ∩ ·) d := by
  intro ds
  induction ds with
  | nil => intro d hd _; simpa using hd
  | cons a t ih =>
    intro d hd hall
    simp only [List.foldl_cons]
    exact ih _ (Finset.mem_inter.mpr ⟨hd, hall a (List.mem_cons_self _ _)⟩)
      (fun s hs => hall s (List.mem_cons_of_mem _ hs))

/-- One `dominators` pass keeps every path dominator: if every walk to a
vertex visits `w` and the current buffer still holds all path dominators,
so does the recomputed buffer. -/
lemma passDom_pathDom (g : DiGraph) (start : Nat) (hWF : g.WF)
    (hstart : start ∈ g.vertices)
    (hreach : ∀ v ∈ g.vertices, g.Reachable start v)
    {cur : List (Nat × Finset Nat)}
    (hinv : ∀ v ∈ g.vertices, ∀ w, PathDom g start v w → w ∈ curFun cur v) :
    ∀ v ∈ g.vertices, ∀ w, PathDom g start v w →
      w ∈ curFun (passDom g start (curFun cur)) v := by
  intro v hv w hPD
  unfold passDom
  rw [curFun_domState, if_pos hv]
  unfold domNext
  by_cases hvs : v = start
  · subst hvs
    rw [if_pos rfl]
    have hw := hPD [v] IsPath.single
    rw [List.mem_singleton] at hw
    subst hw
    exact Finset.mem_singleton_self _
  · rw [if_neg hvs]
    by_cases hwv : w = v
    · subst hwv
      split
      · exact Finset.mem_singleton_self _
      · exact Finset.mem_insert_self _ _
    · have hpredw : ∀ e ∈ g.inEdges v, w ∈ curFun cur e.1 := by
        intro e he
        have hfl := List.mem_filter.mp he
        have hef : e ∈ g.edges := hfl.1
        have he2 : e.2 = v := by simpa using hfl.2
        have hev : (e.1, v) ∈ g.edges := by
          rw [show e = (e.1, e.2) from rfl, he2] at hef
          exact hef
        have he1v : e.1 ∈ g.vertices := (hWF.2 _ hev).1
        apply hinv e.1 he1v
        intro q hq
        have hwq := hPD _ (IsPath.snoc hq hev)
        rcases List.mem_append.mp hwq with hwq | hwq
        · exact hwq
        · rw [List.mem_singleton] at hwq
          exact absurd hwq hwv
      obtain ⟨p0, hp0⟩ := reachable_isPath (hreach v hv)
      have hie : g.inEdges v ≠ [] := by
        cases hp0 with
        | single => exact absurd rfl hvs
        | snoc hq he =>
          intro hnil
          have hmem : _ ∈ g.inEdges v :=
            List.mem_filter.mpr ⟨he, by simp⟩
          rw [hnil] at hmem
          exact absurd hmem (List.not_mem_nil _)
      split
      · rename_i hM
        exact absurd (List.map_eq_nil_iff.mp hM) hie
      · rename_i d ds hM
        apply Finset.mem_insert_of_mem
        have hall : ∀ s ∈ d :: ds, w ∈ s := by
          intro s hs
          have hsm : s ∈ (g.inEdges v).map (fun e => curFun cur e.1) := by
            rw [hM]; exact hs
          rcases List.mem_map.mp hsm with ⟨e, he, rfl⟩
          exact hpredw e he
        exact mem_foldl_inter ds d (hall d (List.mem_cons_self _ _))
          (fun s hs => hall s (List.mem_cons_of_mem _ hs))

/-- The fixpoint loop keeps every path dominator: the property of holding
all path dominators is preserved pass by pass until the returned state. -/
lemma domLoop_pathDom (g : DiGraph) (start : Nat) (hWF : g.WF)
    (hstart : start ∈ g.vertices)
    (hreach : ∀ v ∈ g.vertices, g.Reachable start v) :
    ∀ (fuel : Nat) (cur st : List (Nat × Finset Nat)),
      domLoop g start fuel cur = some st →
      (∀ v ∈ g.vertices, ∀ w, PathDom g start v w → w ∈ curFun cur v) →
      ∀ v ∈ g.vertices, ∀ w, PathDom g start v w → w ∈ curFun st v := by
  intro fuel
  induction fuel with
  | zero => intro cur st h; simp [domLoop] at h
  | succ n ih =>
    intro cur st h hinv
    have hh : domLoop g start (n + 1) cur =
        (if passDom g start (curFun cur) = cur then
          some (passDom g start (curFun cur))
        else domLoop g start n (passDom g start (curFun cur))) := rfl
    rw [hh] at h
    by_cases heq : passDom g start (curFun cur) = cur
    · rw [if_pos heq] at h
      cases h
      exact passDom_pathDom g start hWF hstart hreach hinv
    · rw [if_neg heq] at h
      exact ih _ _ h (passDom_pathDom g start hWF hstart hreach hinv)

/-- Membership in the sorted element list of a finite set. -/
lemma mem_finsetSort {s : Finset Nat} {x : Nat} :
    x ∈ finsetSort s ↔ x ∈ s := by
  rcases s with ⟨val, hnd⟩
  induction val using Quot.inductionOn with
  | h l =>
    show x ∈ sortNat l ↔ _
    rw [Store.sortNat_mem]
    exact Iff.rfl.trans (Iff.symm (by exact Iff.rfl))

/-- Every path dominator of a vertex ends up in the sequence `dominators`
reports for it. -/
lemma dominators_pathDom {g : DiGraph} {start : Nat}
    {dom : List (Nat × List Nat)} (hWF : g.WF) (hstart : start ∈ g.vertices)
    (hreach : ∀ v ∈ g.vertices, g.Reachable start v)
    (hdom : dominators start g = some dom) :
    ∀ v ∈ g.vertices, ∀ w, PathDom g start v w →
      ∃ dl, dom.lookup v = some dl ∧ w ∈ dl := by
  intro v hv w hPD
  unfold dominators at hdom
  cases hloop : domLoop g start (g.vertices.length * g.vertices.length + 2)
      (domState g (fun _ => g.allSet)) with
  | none => rw [hloop] at hdom; simp at hdom
  | some st =>
    rw [hloop] at hdom
    simp only [Option.map_some'] at hdom
    injection hdom with hdom
    have hinit : ∀ v ∈ g.vertices, ∀ w, PathDom g start v w →
        w ∈ curFun (domState g (fun _ => g.allSet)) v := by
      intro v1 hv1 w1 hPD1
      rw [curFun_domState, if_pos hv1]
      obtain ⟨p1, hp1⟩ := reachable_isPath (hreach v1 hv1)
      have hw1 := hPD1 p1 hp1
      have := isPath_mem_vertices hWF hstart hp1 w1 hw1
      simpa [DiGraph.allSet] using this
    have hst := domLoop_pathDom g start hWF hstart hreach _ _ _ hloop hinit
      v hv w hPD
    refine ⟨finsetSort (curFun st v), ?_, ?_⟩
    · rw [← hdom, lookup_map_self (fun v => finsetSort (curFun st v)), if_pos hv]
    · exact mem_finsetSort.mpr hst

/-- A step that leaves the fixpoint flag set changed nothing: the vertex
already carried exactly its recomputed candidate. -/
lemma chkStep_true {g : DiGraph} {rpo : List Nat}
    {st st1 : List (Nat × Nat) × Bool} {b : Nat}
    (h : chkStep g rpo st b = some st1) (h2 : st1.2 = true) :
    st1.1 = st.1 ∧ st.2 = true ∧
      ∃ d, chkNewIdom rpo st.1 b ((g.inEdges b).map (fun e => e.1)) =
        some (some d) ∧ st.1.lookup b = some d := by
  unfold chkStep at h
  cases hnew : chkNewIdom rpo st.1 b ((g.inEdges b).map (fun e => e.1)) with
  | none => rw [hnew] at h; simp at h
  | some new =>
    rw [hnew] at h
    cases new with
    | none => simp at h
    | some d =>
      simp only [Option.bind_eq_bind, Option.some_bind] at h
      by_cases heq : st.1.lookup b = some d
      · rw [if_pos heq] at h
        cases h
        exact ⟨rfl, h2, d, rfl, heq⟩
      · rw [if_neg heq] at h
        cases h
        simp at h2

/-- A whole pass that ends with the fixpoint flag still set started with
it set, left the map unchanged, and re-verified every processed vertex's
candidate against its stored entry. -/
lemma chkFold_true (g : DiGraph) (rpo : List Nat) :
    ∀ (bs : List Nat) (r r2 : List (Nat × Nat)) (fl : Bool),
      bs.foldlM (fun st b => chkStep g rpo st b) (r, fl) = some (r2, true) →
      r2 = r ∧ fl = true ∧ ∀ b ∈ bs,
        ∃ d, chkNewIdom rpo r b ((g.inEdges b).map (fun e => e.1)) =
          some (some d) ∧ r.lookup b = some d := by
  intro bs
  induction bs with
  | nil =>
    intro r r2 fl h
    cases h
    exact ⟨rfl, rfl, by simp⟩
  | cons b bs ih =>
    intro r r2 fl h
    rw [List.foldlM_cons] at h
    cases hstep : chkStep g rpo (r, fl) b with
    | none => rw [hstep] at h; simp at h
    | some st1 =>
      rw [hstep] at h
      simp only [Option.bind_eq_bind, Option.some_bind] at h
      obtain ⟨r1, fl1⟩ := st1
      obtain ⟨hr2, hfl1, hrest⟩ := ih r1 r2 fl1 h
      subst hfl1
      obtain ⟨hr1, hfl, d, hnew, hlk⟩ := chkStep_true hstep rfl
      have hr1r : r1 = r := hr1
      subst hr1r
      refine ⟨hr2, hfl, ?_⟩
      intro b1 hb1
      rcases List.mem_cons.mp hb1 with rfl | hb1
      · exact ⟨d, hnew, hlk⟩
      · exact hrest b1 hb1

/-- The final map of the outer loop satisfies the per-vertex fixpoint
equations: each processed vertex maps to exactly the candidate recomputed
from the final map itself. -/
lemma chkLoop_fixeq (g : DiGraph) (rpo : List Nat) (start : Nat) :
    ∀ (fuel : Nat) (ret m : List (Nat × Nat)),
      chkLoop g rpo start fuel ret = some m →
      ∀ b ∈ rpo.filter (fun v => v ≠ start),
        ∃ d, chkNewIdom rpo m b ((g.inEdges b).map (fun e => e.1)) =
          some (some d) ∧ m.lookup b = some d := by
  intro fuel
  induction fuel with
  | zero => intro ret m h; simp [chkLoop] at h
  | succ n ih =>
    intro ret m h
    unfold chkLoop at h
    cases hpass : chkPass g rpo start ret with
    | none => rw [hpass] at h; simp at h
    | some st =>
      rw [hpass] at h
      simp only [Option.bind_eq_bind, Option.some_bind] at h
      obtain ⟨r1, fl1⟩ := st
      cases fl1 with
      | false =>
        dsimp only at h
        rw [if_neg (by simp)] at h
        exact ih r1 m h
      | true =>
        dsimp only at h
        rw [if_pos rfl] at h
        cases h
        unfold chkPass at hpass
        obtain ⟨hr1, _, hrest⟩ := chkFold_true g rpo _ ret _ true hpass
        subst hr1
        exact hrest

/-- The fixpoint equations of a successful `immediate_dominator` run. -/
lemma idom_fixeq {fuel start : Nat} {g : DiGraph} {m : List (Nat × Nat)}
    (hm : immediate_dominator fuel start g = some m) :
    ∀ b ∈ (rpoList g start).filter (fun v => v ≠ start),
      ∃ d, chkNewIdom (rpoList g start) m b
          ((g.inEdges b).map (fun e => e.1)) = some (some d) ∧
        m.lookup b = some d := by
  unfold immediate_dominator at hm
  exact chkLoop_fixeq g _ start fuel _ m hm

/-- Steps at non-start vertices never move the start vertex's binding. -/
lemma chkStep_lookup_start {g : DiGraph} {rpo : List Nat}
    {st st1 : List (Nat × Nat) × Bool} {b start : Nat}
    (h : chkStep g rpo st b = some st1) (hb : b ≠ start) :
    st1.1.lookup start = st.1.lookup start := by
  unfold chkStep at h
  cases hnew : chkNewIdom rpo st.1 b ((g.inEdges b).map (fun e => e.1)) with
  | none => rw [hnew] at h; simp at h
  | some new =>
    rw [hnew] at h
    cases new with
    | none => simp at h
    | some d =>
      simp only [Option.bind_eq_bind, Option.some_bind] at h
      by_cases heq : st.1.lookup b = some d
      · rw [if_pos heq] at h; cases h; rfl
      · rw [if_neg heq] at h
        cases h
        show (alInsert st.1 b d).lookup start = _
        rw [alInsert_lookup, if_neg (fun hsb => hb hsb.symm)]

/-- A pass over non-start vertices keeps the start vertex's binding. -/
lemma chkFold_lookup_start {g : DiGraph} {rpo : List Nat} {start : Nat} :
    ∀ (bs : List Nat) (st st1 : List (Nat × Nat) × Bool),
      (∀ b ∈ bs, b ≠ start) →
      bs.foldlM (fun st b => chkStep g rpo st b) st = some st1 →
      st1.1.lookup start = st.1.lookup start := by
  intro bs
  induction bs with
  | nil => intro st st1 _ h; cases h; rfl
  | cons b bs ih =>
    intro st st1 hb h
    rw [List.foldlM_cons] at h
    cases hstep : chkStep g rpo st b with
    | none => rw [hstep] at h; simp at h
    | some stm =>
      rw [hstep] at h
      simp only [Option.bind_eq_bind, Option.some_bind] at h
      rw [ih stm st1 (fun x hx => hb x (List.mem_cons_of_mem _ hx)) h]
      exact chkStep_lookup_start hstep (hb b (List.mem_cons_self _ _))

/-- The outer loop keeps the start vertex's binding. -/
lemma chkLoop_lookup_start {g : DiGraph} {rpo : List Nat} {start : Nat} :
    ∀ (fuel : Nat) (ret m : List (Nat × Nat)),
      chkLoop g rpo start fuel ret = some m →
      m.lookup start = ret.lookup start := by
  intro fuel
  induction fuel with
  | zero => intro ret m h; simp [chkLoop] at h
  | succ n ih =>
    intro ret m h
    unfold chkLoop at h
    cases hpass : chkPass g rpo start ret with
    | none => rw [hpass] at h; simp at h
    | some st =>
      rw [hpass] at h
      simp only [Option.bind_eq_bind, Option.some_bind] at h
      unfold chkPass at hpass
      have hfilt : ∀ b ∈ rpo.filter (fun v => v ≠ start), b ≠ start := by
        intro b hbm
        have hb2 := (List.mem_filter.mp hbm).2
        simpa using hb2
      have hps := chkFold_lookup_start _ _ _ hfilt hpass
      by_cases hfix : st.2
      · rw [if_pos hfix] at h
        cases h
        exact hps
      · rw [if_neg hfix] at h
        rw [ih _ _ h]
        exact hps

/-- Any returned idom map sends the start vertex to itself. -/
lemma idom_lookup_start {fuel start : Nat} {g : DiGraph}
    {m : List (Nat × Nat)}
    (hm : immediate_dominator fuel start g = some m) :
    m.lookup start = some start := by
  unfold immediate_dominator at hm
  rw [chkLoop_lookup_start fuel _ m hm]
  simp [List.lookup]

/-- Indexing straight after a prefix. -/
lemma get_append_len {α : Type _} :
    ∀ (l1 : List α) (x : α) (l2 : List α),
      (l1 ++ x :: l2).get? l1.length = some x := by
  intro l1
  induction l1 with
  | nil => intro x l2; rfl
  | cons a t ih => intro x l2; exact ih x l2

/-- A found RPO index points back at the vertex it was computed from. -/
lemma rpoIdx_get {rpo : List Nat} {w i : Nat}
    (h : rpoIdx? rpo w = some i) : rpo.get? i = some w := by
  unfold rpoIdx? at h
  obtain ⟨l1, l2, hdec, hlen⟩ := Store.findIdx_decomp rpo 0 i h
  subst hdec
  have hi : i = l1.length := by omega
  subst hi
  exact get_append_len l1 w l2

/-- Decomposing one successful chain step of the two-finger walk. -/
lemma chkUp_some {rpo : List Nat} {ret : List (Nat × Nat)} {f f2 : Nat}
    (h : chkUp rpo ret f = some f2) :
    ∃ v w, rpo.get? f = some v ∧ ret.lookup v = some w ∧
      rpo.get? f2 = some w := by
  unfold chkUp at h
  cases hg : rpo.get? f with
  | none => rw [hg] at h; simp at h
  | some v =>
    rw [hg] at h
    simp only [Option.bind_eq_bind, Option.some_bind] at h
    cases hl : ret.lookup v with
    | none => rw [hl] at h; simp at h
    | some w =>
      rw [hl] at h
      simp only [Option.some_bind] at h
      exact ⟨v, w, rfl, hl, rpoIdx_get h⟩

/-- A successful two-finger walk returns a vertex lying on the idom chains
of both fingers' vertices. -/
lemma intersectGo_chain {rpo : List Nat} {ret : List (Nat × Nat)} :
    ∀ (fuel f1 f2 w : Nat), intersectGo rpo ret fuel f1 f2 = some w →
      ∀ v1 v2, rpo.get? f1 = some v1 → rpo.get? f2 = some v2 →
        InChain ret v1 w ∧ InChain ret v2 w := by
  intro fuel
  induction fuel with
  | zero => intro f1 f2 w h; simp [intersectGo] at h
  | succ n ih =>
    intro f1 f2 w h v1 v2 hv1 hv2
    unfold intersectGo at h
    by_cases heq : f1 = f2
    · rw [if_pos heq] at h
      rw [hv1] at h
      injection h with h
      subst h
      subst heq
      rw [hv1] at hv2
      injection hv2 with hv2
      subst hv2
      exact ⟨Relation.ReflTransGen.refl, Relation.ReflTransGen.refl⟩
    · rw [if_neg heq] at h
      by_cases hlt : f2 < f1
      · rw [if_pos hlt] at h
        cases hup : chkUp rpo ret f1 with
        | none => rw [hup] at h; simp at h
        | some f1m =>
          rw [hup] at h
          simp only [Option.bind_eq_bind, Option.some_bind] at h
          obtain ⟨a, c, hga, hlab, hgc⟩ := chkUp_some hup
          rw [hv1] at hga
          injection hga with hga
          subst hga
          obtain ⟨hc1, hc2⟩ := ih _ _ _ h c v2 hgc hv2
          exact ⟨Relation.ReflTransGen.head hlab hc1, hc2⟩
      · rw [if_neg hlt] at h
        cases hup : chkUp rpo ret f2 with
        | none => rw [hup] at h; simp at h
        | some f2m =>
          rw [hup] at h
          simp only [Option.bind_eq_bind, Option.some_bind] at h
          obtain ⟨a, c, hga, hlab, hgc⟩ := chkUp_some hup
          rw [hv2] at hga
          injection hga with hga
          subst hga
          obtain ⟨hc1, hc2⟩ := ih _ _ _ h v1 c hv1 hgc
          exact ⟨hc1, Relation.ReflTransGen.head hlab hc2⟩

/-- `intersect` returns a vertex on the idom chains of both arguments. -/
lemma intersectV_chain {rpo : List Nat} {ret : List (Nat × Nat)}
    {p q w : Nat} (h : intersectV rpo ret p q = some w) :
    InChain ret p w ∧ InChain ret q w := by
  unfold intersectV at h
  cases h1 : rpoIdx? rpo p with
  | none => rw [h1] at h; simp at h
  | some f1 =>
    rw [h1] at h
    simp only [Option.bind_eq_bind, Option.some_bind] at h
    cases h2 : rpoIdx? rpo q with
    | none => rw [h2] at h; simp at h
    | some f2 =>
      rw [h2] at h
      simp only [Option.some_bind] at h
      exact intersectGo_chain _ _ _ _ h p q (rpoIdx_get h1) (rpoIdx_get h2)

/-- The candidate fold keeps every processed vertex's chain pointing at
the final candidate: the accumulator chains into the result, and every
resolved predecessor other than `b` chains into the result. -/
lemma chkFold_chain (rpo : List Nat) (ret : List (Nat × Nat)) (b : Nat) :
    ∀ (preds : List Nat) (acc res : Option Nat),
      preds.foldlM
        (fun acc p =>
          if p = b then pure acc
          else
            match acc with
            | some d =>
              if (ret.lookup p).isSome then (intersectV rpo ret p d).map some
              else pure (some d)
            | none => pure (some p))
        acc = some res →
      (∀ c, acc = some c → ∃ d, res = some d ∧ InChain ret c d) ∧
      (∀ p ∈ preds, p ≠ b → (ret.lookup p).isSome →
        ∃ d, res = some d ∧ InChain ret p d) := by
  intro preds
  induction preds with
  | nil =>
    intro acc res h
    cases h
    constructor
    · intro c hc
      exact ⟨c, hc, Relation.ReflTransGen.refl⟩
    · intro p hp
      simp at hp
  | cons p preds ih =>
    intro acc res h
    rw [List.foldlM_cons] at h
    by_cases hpb : p = b
    · rw [if_pos hpb] at h
      simp only [Option.pure_def, Option.bind_eq_bind, Option.some_bind] at h
      obtain ⟨ih1, ih2⟩ := ih acc res h
      refine ⟨ih1, ?_⟩
      intro p1 hp1 hp1b hres
      rcases List.mem_cons.mp hp1 with rfl | hp1
      · exact absurd hpb hp1b
      · exact ih2 p1 hp1 hp1b hres
    · rw [if_neg hpb] at h
      cases acc with
      | none =>
        simp only [Option.pure_def, Option.bind_eq_bind, Option.some_bind] at h
        obtain ⟨ih1, ih2⟩ := ih (some p) res h
        obtain ⟨d, hres, hchain⟩ := ih1 p rfl
        constructor
        · intro c hc
          exact absurd hc (by simp)
        · intro p1 hp1 hp1b hres1
          rcases List.mem_cons.mp hp1 with rfl | hp1
          · exact ⟨d, hres, hchain⟩
          · exact ih2 p1 hp1 hp1b hres1
      | some c0 =>
        dsimp only at h
        by_cases hr : (ret.lookup p).isSome
        · rw [if_pos hr] at h
          cases hint : intersectV rpo ret p c0 with
          | none => rw [hint] at h; simp at h
          | some c1 =>
            rw [hint] at h
            simp only [Option.map_some', Option.bind_eq_bind,
              Option.some_bind] at h
            obtain ⟨hip, hic0⟩ := intersectV_chain hint
            obtain ⟨ih1, ih2⟩ := ih (some c1) res h
            obtain ⟨d, hres, hchain⟩ := ih1 c1 rfl
            constructor
            · intro c hc
              injection hc with hc
              subst hc
              exact ⟨d, hres, hic0.trans hchain⟩
            · intro p1 hp1 hp1b hres1
              rcases List.mem_cons.mp hp1 with rfl | hp1
              · exact ⟨d, hres, hip.trans hchain⟩
              · exact ih2 p1 hp1 hp1b hres1
        · rw [if_neg hr] at h
          simp only [Option.pure_def, Option.bind_eq_bind,
            Option.some_bind] at h
          obtain ⟨ih1, ih2⟩ := ih (some c0) res h
          refine ⟨ih1, ?_⟩
          intro p1 hp1 hp1b hres1
          rcases List.mem_cons.mp hp1 with rfl | hp1
          · exact absurd hres1 hr
          · exact ih2 p1 hp1 hp1b hres1

/-- Every resolved predecessor of `b` other than `b` itself chains into
the candidate `chkNewIdom` computes for `b`. -/
lemma chkNewIdom_chain {rpo : List Nat} {ret : List (Nat × Nat)} {b d : Nat}
    {preds : List Nat}
    (h : chkNewIdom rpo ret b preds = some (some d)) :
    ∀ p ∈ preds, p ≠ b → (ret.lookup p).isSome → InChain ret p d := by
  intro p hp hpb hres
  obtain ⟨_, h2⟩ := chkFold_chain rpo ret b preds none (some d) h
  obtain ⟨d1, hd1, hchain⟩ := h2 p hp hpb hres
  injection hd1 with hd1
  subst hd1
  exact hchain

/-- A chain out of the start vertex never leaves it. -/
lemma chain_start {m : List (Nat × Nat)} {start w : Nat}
    (hs : m.lookup start = some start) (h : InChain m start w) :
    w = start := by
  induction h with
  | refl => rfl
  | tail _ h2 ih =>
    subst ih
    rw [hs] at h2
    injection h2 with h2
    exact h2.symm

/-- Core correctness of the returned idom map: every vertex on a vertex's
idom chain lies on every walk from the start vertex to it.  Proved by
strong induction on walk length, using the fixpoint equations of the
final map and the chain property of the candidate fold. -/
lemma chain_on_path {fuel start : Nat} {g : DiGraph} {m : List (Nat × Nat)}
    (hWF : g.WF) (hstart : start ∈ g.vertices)
    (hm : immediate_dominator fuel start g = some m) :
    ∀ (n : Nat) (p : List Nat) (x w : Nat), p.length ≤ n →
      IsPath g start x p → InChain m x w → w ∈ p := by
  intro n
  induction n with
  | zero =>
    intro p x w hlen hp _
    cases hp with
    | single => simp at hlen
    | snoc _ _ => simp at hlen
  | succ n ih =>
    intro p x w hlen hp hc
    by_cases hxs : x = start
    · rw [hxs] at hp hc
      have hw : w = start := chain_start (idom_lookup_start hm) hc
      subst hw
      exact isPath_start_mem hp
    · cases hp with
      | single => exact absurd rfl hxs
      | snoc hq he =>
        rename_i v q
        rcases Relation.ReflTransGen.cases_head hc with rfl | ⟨z, hz, hzw⟩
        · exact List.mem_append_right _ (List.mem_singleton_self _)
        · have hxreach : g.Reachable start x :=
            isPath_reachable (IsPath.snoc hq he)
          have hxrpo : x ∈ rpoList g start :=
            (rpoList_mem g start x).mpr (postorder_complete g hWF hstart hxreach)
          obtain ⟨d, hnew, hlkx⟩ := idom_fixeq hm x
            (List.mem_filter.mpr ⟨hxrpo, by simpa using hxs⟩)
          have hzd : z = d := by
            rw [hz] at hlkx
            injection hlkx
          subst hzd
          by_cases hvx : v = x
          · subst hvx
            have hwq : w ∈ q := ih q v w (by
              have := hlen
              simp only [List.length_append, List.length_singleton] at this
              omega) hq hc
            exact List.mem_append_left _ hwq
          · have hvpred : v ∈ (g.inEdges x).map (fun e => e.1) :=
              List.mem_map.mpr ⟨(v, x), List.mem_filter.mpr ⟨he, by simp⟩, rfl⟩
            have hvreach : g.Reachable start v := isPath_reachable hq
            have hvsome : (m.lookup v).isSome := by
              apply (immediate_dominator_keys hm v).mpr
              by_cases hvst : v = start
              · exact Or.inl hvst
              · exact Or.inr ((rpoList_mem g start v).mpr
                  (postorder_complete g hWF hstart hvreach))
            have hchain_vd : InChain m v z :=
              chkNewIdom_chain hnew v hvpred hvx hvsome
            have hchain_vw : InChain m v w := hchain_vd.trans hzw
            have hwq : w ∈ q := ih q v w (by
              have := hlen
              simp only [List.length_append, List.length_singleton] at this
              omega) hq hchain_vw
            exact List.mem_append_left _ hwq

/-- The value the returned map stores for a reachable non-start vertex is
never the vertex itself: a walk visiting the vertex only at its end would
otherwise have to visit it earlier as well. -/
lemma idom_ne {fuel start : Nat} {g : DiGraph} {m : List (Nat × Nat)}
    {v w : Nat} (hWF : g.WF) (hstart : start ∈ g.vertices)
    (hm : immediate_dominator fuel start g = some m) (hvs : v ≠ start)
    (hvreach : g.Reachable start v) (hlk : m.lookup v = some w) :
    w ≠ v := by
  intro hwv
  rw [hwv] at hlk
  obtain ⟨p0, hp0⟩ := reachable_isPath hvreach
  obtain ⟨q, hq, hnv, hqsub⟩ := path_first_occ hp0 v (isPath_end_mem hp0)
  cases hq with
  | single => exact hvs rfl
  | snoc hq1 he =>
    rename_i u q1
    rw [List.dropLast_concat] at hnv
    by_cases huv : u = v
    · subst huv
      exact hnv (isPath_end_mem hq1)
    · have hurpo : v ∈ rpoList g start :=
        (rpoList_mem g start v).mpr (postorder_complete g hWF hstart hvreach)
      obtain ⟨d, hnew, hlkv⟩ := idom_fixeq hm v
        (List.mem_filter.mpr ⟨hurpo, by simpa using hvs⟩)
      have hdv : d = v := by
        rw [hlk] at hlkv
        injection hlkv with hlkv
        exact hlkv.symm
      rw [hdv] at hnew
      have hupred : u ∈ (g.inEdges v).map (fun e => e.1) :=
        List.mem_map.mpr ⟨(u, v), List.mem_filter.mpr ⟨he, by simp⟩, rfl⟩
      have hureach : g.Reachable start u := isPath_reachable hq1
      have husome : (m.lookup u).isSome := by
        apply (immediate_dominator_keys hm u).mpr
        by_cases hust : u = start
        · exact Or.inl hust
        · exact Or.inr ((rpoList_mem g start u).mpr
            (postorder_complete g hWF hstart hureach))
      have hchain_uv : InChain m u v := chkNewIdom_chain hnew u hupred huv husome
      have hvq1 : v ∈ q1 :=
        chain_on_path hWF hstart hm q1.length q1 u v le_rfl hq1 hchain_uv
      exact hnv hvq1

/-- C3: whenever `immediate_dominator` returns a map on a well-formed,
fully reachable graph (the case the claim describes), the map sends the
start vertex to itself, and every other vertex is mapped to a vertex that
lies in the sequence `dominators` reports for it and differs from the
vertex itself: `Idom(v) ∈ Dom(v) \ {v}`. -/
theorem C3_idom_in_dominators {fuel start : Nat} {g : DiGraph}
    {m : List (Nat × Nat)} {dom : List (Nat × List Nat)}
    (hWF : g.WF) (hstart : start ∈ g.vertices)
    (hreach : ∀ v ∈ g.vertices, g.Reachable start v)
    (hm : immediate_dominator fuel start g = some m)
    (hdom : dominators start g = some dom) :
    m.lookup start = some start ∧
    ∀ v ∈ g.vertices, v ≠ start →
      ∃ w dl, m.lookup v = some w ∧ dom.lookup v = some dl ∧
        w ∈ dl ∧ w ≠ v := by
  refine ⟨idom_lookup_start hm, ?_⟩
  intro v hv hvs
  have hvreach := hreach v hv
  have hsome : (m.lookup v).isSome := by
    apply (immediate_dominator_keys hm v).mpr
    exact Or.inr ((rpoList_mem g start v).mpr
      (postorder_complete g hWF hstart hvreach))
  obtain ⟨w, hw⟩ := Option.isSome_iff_exists.mp hsome
  have hPD : PathDom g start v w := by
    intro p hp
    exact chain_on_path hWF hstart hm p.length p v w le_rfl hp
      (Relation.ReflTransGen.single hw)
  obtain ⟨dl, hdl, hwdl⟩ := dominators_pathDom hWF hstart hreach hdom v hv w hPD
  exact ⟨w, dl, hw, hdl, hwdl, idom_ne hWF hstart hm hvs hvreach hw⟩

/-- Witness: `C3_idom_in_dominators` applied to the concrete fully
reachable graph `gPathTwo` with start `0`. -/
theorem C3_idom_in_dominators_witness :
    List.lookup 0 [(0, 0), (1, 0)] = some 0 ∧
    ∀ v ∈ gPathTwo.vertices, v ≠ 0 →
      ∃ w dl, List.lookup v [(0, 0), (1, 0)] = some w ∧
        List.lookup v [(0, [0]), (1, [0, 1])] = some dl ∧
        w ∈ dl ∧ w ≠ v :=
  @C3_idom_in_dominators 5 0 gPathTwo [(0, 0), (1, 0)]
    [(0, [0]), (1, [0, 1])] (by decide) (by decide)
    (by
      intro v hv
      rcases List.mem_cons.mp hv with rfl | hv1
      · exact Relation.ReflTransGen.refl
      · rcases List.mem_cons.mp hv1 with rfl | hv2
        · exact Relation.ReflTransGen.single
            (show (0, 1) ∈ gPathTwo.edges by decide)
        · cases hv2)
    (by decide) (by decide)

end RustGraphAlgos
